import Mathlib

/-!
Verification development for the fortio load-generator statistics and
live-monitoring layer.

The Go source in `pkg/stats/stats.go` and `ui/realtime.go` (plus the run
monitor) is shallowly embedded here:

* `float64` is modelled by `ℚ`.  Every operation the verified claims touch
  (addition, multiplication, division, comparison) is an exact field
  operation in the source as well as here, so the structural properties
  proved below (bucket assignment, export layout, percentile interpolation,
  merge algebra) have the same truth value as over IEEE doubles; the one
  float-sensitive artefact in the source, the `1e-12` epsilon adjustment in
  `Histogram.record`, is carried over literally as the rational `1/10^12`.
* `int`, `int32` and `int64` are modelled by `ℤ`; the counts involved stay
  far from the 32/64-bit overflow boundaries, so no wrap-around modelling is
  needed for the properties at hand.
* Code that can panic (negative slice index in `lookUpIdx`, nil histogram
  from `NewHistogram`) returns `Option`.
-/

set_option maxHeartbeats 1000000

namespace Fortio

/-- Counter from stats.go: records values and keeps count/min/max/sum and the
sum of squares of the per-call contributions. -/
structure Counter where
  Count : ℤ
  Min : ℚ
  Max : ℚ
  Sum : ℚ
  sumOfSquares : ℚ
deriving DecidableEq, Repr

/-- Zero value of Counter (`var empty Counter` in `Counter.Reset`). -/
def Counter.empty : Counter := ⟨0, 0, 0, 0, 0⟩

/-- Counter.RecordN from stats.go:

```
isFirst := (c.Count == 0)
c.Count += int64(n)
switch {
case isFirst:  c.Min = v; c.Max = v
case v < c.Min: c.Min = v
case v > c.Max: c.Max = v
}
s := v * float64(n)
c.Sum += s
c.sumOfSquares += (s * s)
```
The `switch` takes exactly one branch, which the nested `if`s reproduce. -/
def Counter.RecordN (c : Counter) (v : ℚ) (n : ℤ) : Counter :=
  { Count := c.Count + n
    Min := if c.Count = 0 then v else if v < c.Min then v else c.Min
    Max := if c.Count = 0 then v
           else if v < c.Min then c.Max
           else if c.Max < v then v else c.Max
    Sum := c.Sum + v * (n : ℚ)
    sumOfSquares := c.sumOfSquares + (v * (n : ℚ)) * (v * (n : ℚ)) }

/-- Counter.Record from stats.go (`c.RecordN(v, 1)`). -/
def Counter.Record (c : Counter) (v : ℚ) : Counter :=
  c.RecordN v 1

/-- Counter.Avg from stats.go. -/
def Counter.Avg (c : Counter) : ℚ :=
  if c.Count = 0 then 0 else c.Sum / (c.Count : ℚ)

/-- Counter.Transfer from stats.go, as a pure function returning the updated
destination and the cleared source. -/
def Counter.Transfer (c src : Counter) : Counter × Counter :=
  if src.Count = 0 then (c, src)
  else if c.Count = 0 then (src, Counter.empty)
  else
    ({ Count := c.Count + src.Count
       Min := if src.Min < c.Min then src.Min else c.Min
       Max := if c.Max < src.Max then src.Max else c.Max
       Sum := c.Sum + src.Sum
       sumOfSquares := c.sumOfSquares + src.sumOfSquares }, Counter.empty)

/-- C6: `RecordN(v, n)` increases `Count` by `n`, adds `s = n·v` to `Sum`, and
adds `s·s = (n·v)²` — not `n·v²` — to `sumOfSquares`, while `Min`/`Max` are
updated against the single value `v` (the first record sets `Min = Max = v`;
afterwards the switch lowers `Min` when `v < Min`, else raises `Max` when
`v > Max`). -/
theorem counter_recordN_compound_squares (c : Counter) (v : ℚ) (n : ℤ) :
    (c.RecordN v n).Count = c.Count + n ∧
    (c.RecordN v n).Sum = c.Sum + (n : ℚ) * v ∧
    (c.RecordN v n).sumOfSquares = c.sumOfSquares + ((n : ℚ) * v) ^ 2 ∧
    (c.Count = 0 → (c.RecordN v n).Min = v ∧ (c.RecordN v n).Max = v) ∧
    (c.Count ≠ 0 →
      (c.RecordN v n).Min = (if v < c.Min then v else c.Min) ∧
      (c.RecordN v n).Max =
        (if v < c.Min then c.Max else if c.Max < v then v else c.Max)) := by
  refine ⟨rfl, by simp [Counter.RecordN]; ring, by simp [Counter.RecordN]; ring, ?_, ?_⟩
  · intro h
    simp [Counter.RecordN, h]
  · intro h
    simp [Counter.RecordN, h]

/-- Witness for `counter_recordN_compound_squares` at a concrete input: after
one record, a second `RecordN(3, 2)` adds `(2·3)² = 36` to the sum of
squares (not `2·3² = 18`). -/
theorem counter_recordN_compound_squares_witness :
    ((⟨1, 5, 5, 5, 25⟩ : Counter).Count ≠ 0) ∧
    ((⟨1, 5, 5, 5, 25⟩ : Counter).RecordN 3 2).sumOfSquares = 25 + 36 ∧
    ((⟨1, 5, 5, 5, 25⟩ : Counter).RecordN 3 2).Min = 3 := by
  have h := counter_recordN_compound_squares ⟨1, 5, 5, 5, 25⟩ 3 2
  refine ⟨by decide, ?_, ?_⟩
  · have := h.2.2.1
    norm_num at this ⊢
    exact this
  · have := (h.2.2.2.2 (by decide)).1
    norm_num at this ⊢
    exact this

/-! ## Histogram bucket machinery (stats.go) -/

/-- histogramBucketValues from stats.go: the fixed bucket boundary sequence. -/
def histogramBucketValues : List ℤ :=
  [0, 1, 2, 3, 4, 5, 6,
   7, 8, 9, 10, 11,
   12, 14, 16, 18, 20,
   25, 30, 35, 40, 45, 50,
   60, 70, 80, 90, 100,
   120, 140, 160, 180, 200,
   250, 300, 350, 400, 450, 500,
   600, 700, 800, 900, 1000,
   2000, 3000, 4000, 5000, 7500, 10000,
   20000, 30000, 40000, 50000, 75000, 100000]

/-- numValues from stats.go (`len(histogramBucketValues)`, i.e. 56). -/
def numValues : ℕ := histogramBucketValues.length

/-- numBuckets from stats.go (`numValues + 1`): one extra overflow bucket. -/
def numBuckets : ℕ := numValues + 1

/-- firstValue from stats.go (`float64(histogramBucketValues[0])` = 0). -/
def firstValue : ℚ := ((histogramBucketValues.getD 0 0 : ℤ) : ℚ)

/-- lastValue from stats.go (`float64(histogramBucketValues[numValues-1])`
= 100000). -/
def lastValue : ℚ := ((histogramBucketValues.getD (numValues - 1) 0 : ℤ) : ℚ)

/-- maxArrayValue from stats.go: boundary below which lookup is by table. -/
def maxArrayValue : ℤ := 1000

/-- maxArrayValueIndex from stats.go: found by scanning the boundary list for
`maxArrayValue` in `init()` (it is 43). -/
def maxArrayValueIndex : ℕ :=
  histogramBucketValues.findIdx (fun v => v = maxArrayValue)

/-- One step of the `init()` loop of stats.go that fills `val2Bucket`:
`if i >= histogramBucketValues[idx] { idx++ }`.  `getD _ 0` stands for the
array access (the loop keeps `idx` in range, proven below). -/
def v2bStep (idx : ℕ) (i : ℕ) : ℕ :=
  if histogramBucketValues.getD idx 0 ≤ (i : ℤ) then idx + 1 else idx

/-- Running index of the `init()` loop after processing entry `i`; the Go
array satisfies `val2Bucket[i] = v2bIdx i` for `i < maxArrayValue`. -/
def v2bIdx : ℕ → ℕ
  | 0 => v2bStep 0 0
  | n + 1 => v2bStep (v2bIdx n) (n + 1)

/-- lookUpIdx from stats.go.  Returns `none` where the Go code would fail:
a negative `scaledValue` panics on `val2Bucket[scaledValue]`, and falling off
the linear scan hits `log.Fatalf`. -/
def lookUpIdx (scaledValue : ℤ) : Option ℕ :=
  if scaledValue < maxArrayValue then
    if scaledValue < 0 then none
    else some (v2bIdx scaledValue.toNat)
  else
    ((List.range numValues).drop maxArrayValueIndex).find?
      (fun i => decide (scaledValue < histogramBucketValues.getD i 0))

/-- Go's `int(x)` conversion for `float64`: truncation toward zero. -/
def goInt (q : ℚ) : ℤ :=
  if q < 0 then -(Int.floor (-q)) else Int.floor q

/-- The `1e-12` epsilon of `Histogram.record` ("open interval adjustment"). -/
def recordEpsilon : ℚ := 1 / 1000000000000

/-- The scaled value of `Histogram.record`: `(v - offset) / divider`. -/
def scaledOf (offset divider v : ℚ) : ℚ := (v - offset) / divider

/-- Index computation of `Histogram.record` from stats.go:

```
scaledVal := (v - h.Offset) / h.Divider
switch {
case scaledVal <= firstValue: idx = 0
case scaledVal > lastValue:   idx = numBuckets - 1
default:
  svInt := int(scaledVal)
  delta := scaledVal - float64(svInt)
  if delta < 1e-12 { svInt-- }
  idx = lookUpIdx(svInt)
}
``` -/
def bucketIdx (offset divider v : ℚ) : Option ℕ :=
  let scaledVal := scaledOf offset divider v
  if scaledVal ≤ firstValue then some 0
  else if lastValue < scaledVal then some (numBuckets - 1)
  else
    let svInt := goInt scaledVal
    let delta := scaledVal - (svInt : ℚ)
    lookUpIdx (if delta < recordEpsilon then svInt - 1 else svInt)

/-- Histogram from stats.go: a Counter plus offset/divider and the bucket
count array `Hdata` (length `numBuckets`). -/
structure Histogram where
  counter : Counter
  Offset : ℚ
  Divider : ℚ
  Hdata : List ℤ
deriving DecidableEq, Repr

/-- NewHistogram from stats.go; `nil` for a zero divider becomes `none`. -/
def NewHistogram (offset divider : ℚ) : Option Histogram :=
  if divider = 0 then none
  else some { counter := Counter.empty, Offset := offset, Divider := divider,
              Hdata := List.replicate numBuckets 0 }

/-- Histogram.record from stats.go (`h.Hdata[idx] += int32(count)`); `none`
when the index lookup panics. -/
def Histogram.record (h : Histogram) (v : ℚ) (count : ℤ) : Option Histogram :=
  (bucketIdx h.Offset h.Divider v).map fun idx =>
    { h with Hdata := h.Hdata.set idx (h.Hdata.getD idx 0 + count) }

/-- Histogram.RecordN from stats.go: update the embedded counter, then the
bucket array. -/
def Histogram.RecordN (h : Histogram) (v : ℚ) (n : ℤ) : Option Histogram :=
  Histogram.record { h with counter := h.counter.RecordN v n } v n

/-- A histogram obtained from `NewHistogram` by a sequence of `RecordN`
calls — the reachable histogram states the exported-data claims range over. -/
def buildHistogram (offset divider : ℚ) (recs : List (ℚ × ℤ)) :
    Option Histogram :=
  (NewHistogram offset divider).bind fun h0 =>
    recs.foldlM (fun h r => h.RecordN r.1 r.2) h0

/-! ## Export and CalcPercentile (stats.go) -/

/-- Bucket from stats.go: an interval with cumulative percentile and count. -/
structure Bucket where
  Start : ℚ
  End : ℚ
  Percent : ℚ
  Count : ℤ
deriving DecidableEq, Repr

/-- Default bucket used only as the `getD` fallback in statements. -/
instance : Inhabited Bucket := ⟨⟨0, 0, 0, 0⟩⟩

/-- HistogramData from stats.go.  The real-valued summary field `StdDev`
(a square root, never read by any claim under verification) is omitted from
the rational model; everything else is carried. -/
structure HistogramData where
  Count : ℤ
  Min : ℚ
  Max : ℚ
  Sum : ℚ
  Avg : ℚ
  Data : List Bucket
deriving DecidableEq, Repr

/-- The descending scan of Export that finds the last non-empty bucket:
`for i := numBuckets - 1; i >= 0; i-- { if h.Hdata[i] > 0 { lastIdx = i } }`;
`none` models `lastIdx == -1`. -/
def findLastIdx (hdata : List ℤ) : Option ℕ :=
  (List.range numBuckets).reverse.find? (fun i => decide (0 < hdata.getD i 0))

/-- Loop state of the export loop in `Histogram.Export`. -/
structure ExportState where
  prev : ℤ
  total : ℤ
  data : List Bucket
deriving Repr

/-- One iteration `i` of the export loop of stats.go:

```
if h.Hdata[i] == 0 { if i < numValues { prev = histogramBucketValues[i] }; continue }
total += int64(h.Hdata[i])
if len(res.Data) == 0 { b.Start = h.Min } else { b.Start = multiplier*float64(prev) + offset }
b.Percent = 100. * float64(total) / ctrTotal
if i < numValues { cur := histogramBucketValues[i]; b.End = multiplier*float64(cur) + offset; prev = cur }
else { b.End = h.Max }
b.Count = int64(h.Hdata[i])
res.Data = append(res.Data, b)
``` -/
def exportStep (hMin hMax offset multiplier ctrTotal : ℚ) (hdata : List ℤ)
    (st : ExportState) (i : ℕ) : ExportState :=
  let c := hdata.getD i 0
  if c = 0 then
    { st with prev := if i < numValues then histogramBucketValues.getD i 0 else st.prev }
  else
    let total := st.total + c
    let start := if st.data = [] then hMin else multiplier * (st.prev : ℚ) + offset
    let percent := 100 * (total : ℚ) / ctrTotal
    if i < numValues then
      let cur := histogramBucketValues.getD i 0
      { prev := cur, total := total
        data := st.data ++ [⟨start, multiplier * (cur : ℚ) + offset, percent, c⟩] }
    else
      { st with total := total, data := st.data ++ [⟨start, hMax, percent, c⟩] }

/-- The final `res.Data[len(res.Data)-1].End = h.Max` of Export. -/
def setLastEnd (maxv : ℚ) : List Bucket → List Bucket
  | [] => []
  | [b] => [{ b with End := maxv }]
  | b :: b' :: rest => b :: setLastEnd maxv (b' :: rest)

/-- Histogram.Export from stats.go. -/
def Histogram.Export (h : Histogram) : HistogramData :=
  let res0 : HistogramData :=
    { Count := h.counter.Count, Min := h.counter.Min, Max := h.counter.Max
      Sum := h.counter.Sum, Avg := h.counter.Avg, Data := [] }
  match findLastIdx h.Hdata with
  | none => res0
  | some lastIdx =>
      let st := (List.range (lastIdx + 1)).foldl
        (exportStep h.counter.Min h.counter.Max h.Offset h.Divider
          (h.counter.Count : ℚ) h.Hdata)
        ⟨histogramBucketValues.getD 0 0, 0, []⟩
      { res0 with Data := setLastEnd h.counter.Max st.data }

/-- The search loop of `HistogramData.CalcPercentile`, carrying the previous
cumulative percent `pp`; the fallthrough (`// not reached`) returns `Max`. -/
def calcLoop (maxv percentile : ℚ) : List Bucket → ℚ → ℚ
  | [], _ => maxv
  | b :: rest, pp =>
      if percentile ≤ b.Percent then
        b.Start + (percentile - pp) / (b.Percent - pp) * (b.End - b.Start)
      else calcLoop maxv percentile rest b.Percent

/-- HistogramData.CalcPercentile from stats.go. -/
def HistogramData.CalcPercentile (e : HistogramData) (percentile : ℚ) : ℚ :=
  if e.Data = [] then 0
  else if 100 ≤ percentile then e.Max
  else
    let pp := 100 / (e.Count : ℚ)
    if percentile ≤ pp then e.Min
    else calcLoop e.Max percentile e.Data pp

/-! ## Reset / CopyFrom / Transfer / Merge (stats.go) -/

/-- Histogram.Reset from stats.go: clear the counter and zero every bucket,
leaving `Offset` and `Divider` alone. -/
def Histogram.Reset (h : Histogram) : Histogram :=
  { h with counter := Counter.empty, Hdata := List.replicate h.Hdata.length 0 }

/-- Histogram.copyHDataFrom from stats.go.  The fast path (same scale) adds
`src.Hdata[i]` into each of the destination's indices; the slow path
re-records the midpoint of every exported source bucket and can therefore
panic (`none`). -/
def Histogram.copyHDataFrom (h src : Histogram) : Option Histogram :=
  if h.Divider = src.Divider ∧ h.Offset = src.Offset then
    let added := (List.range h.Hdata.length).map
      (fun i => h.Hdata.getD i 0 + src.Hdata.getD i 0)
    some { h with Hdata := added }
  else
    src.Export.Data.foldlM
      (fun h' b => h'.record ((b.Start + b.End) / 2) b.Count) h

/-- Histogram.CopyFrom from stats.go: take the source counter, then add the
source bucket data. -/
def Histogram.CopyFrom (h src : Histogram) : Option Histogram :=
  Histogram.copyHDataFrom { h with counter := src.counter } src

/-- Histogram.Transfer from stats.go, returning the updated destination and
the cleared source:

```
if src.Count == 0 { return }
if h.Count == 0 { h.CopyFrom(src); src.Reset(); return }
h.copyHDataFrom(src)
h.Counter.Transfer(&src.Counter)
src.Reset()
``` -/
def Histogram.Transfer (h src : Histogram) : Option (Histogram × Histogram) :=
  if src.counter.Count = 0 then some (h, src)
  else if h.counter.Count = 0 then
    (h.CopyFrom src).map fun h' => (h', src.Reset)
  else
    (h.copyHDataFrom src).map fun h' =>
      ({ h' with counter := (h'.counter.Transfer src.counter).1 }, src.Reset)

/-- Merge from stats.go: build a fresh histogram with the lower offset and
higher divider, then destructively transfer both sources into it.  Returns
`(merged, h1 after, h2 after)`; `none` models the nil-pointer panic when the
selected divider is zero, or a slow-path record panic. -/
def Merge (h1 h2 : Histogram) : Option (Histogram × Histogram × Histogram) :=
  let divider := if h1.Divider < h2.Divider then h2.Divider else h1.Divider
  let offset := if h2.Offset < h1.Offset then h2.Offset else h1.Offset
  (NewHistogram offset divider).bind fun newH =>
    (newH.Transfer h1).bind fun p1 =>
      (p1.1.Transfer h2).map fun p2 => (p2.1, p1.2, p2.2)

/-- Just the merged histogram produced by `Merge`. -/
def mergeResult (h1 h2 : Histogram) : Option Histogram :=
  (Merge h1 h2).map (·.1)

/-! ## Prometheus text parser (ui/realtime.go)

Strings are modelled as `List Char`.  The byte-oriented pieces of the Go
code (`bufio.Scanner` line splitting, `strings.TrimSpace`, `strings.Fields`,
`strings.Index`) are re-expressed as character-list recursions with the same
observable behaviour on the inputs the parser sees; `strconv.ParseFloat` is
modelled for plain decimal notation (the hexadecimal / `Inf` / `NaN` forms
it also accepts never appear in Prometheus text output). -/

/-- The ASCII instances of Go's `unicode.IsSpace` (space, tab, newline,
carriage return, vertical tab, form feed). -/
def isGoSpace (c : Char) : Bool :=
  c == ' ' || c == '\t' || c == '\n' || c == '\r' || c == '\x0b' || c == '\x0c'

/-- strings.TrimSpace. -/
def goTrimSpace (l : List Char) : List Char :=
  ((l.dropWhile isGoSpace).reverse.dropWhile isGoSpace).reverse

/-- Accumulator pass behind `strings.Fields`: split on maximal whitespace
runs, dropping empty fields.  `acc` holds the current token reversed. -/
def fieldsAux : List Char → List Char → List (List Char)
  | acc, [] => if acc = [] then [] else [acc.reverse]
  | acc, c :: t =>
      if isGoSpace c then
        if acc = [] then fieldsAux [] t else acc.reverse :: fieldsAux [] t
      else fieldsAux (c :: acc) t

/-- strings.Fields. -/
def goFields (l : List Char) : List (List Char) := fieldsAux [] l

/-- Line splitting of `bufio.Scanner` over a `strings.NewReader`.  The
scanner emits no final empty token after a trailing newline whereas this
model does; the parser skips empty lines, so the two agree on every parse
result. -/
def splitLinesAux : List Char → List Char → List (List Char)
  | acc, [] => [acc.reverse]
  | acc, c :: t =>
      if c = '\n' then acc.reverse :: splitLinesAux [] t
      else splitLinesAux (c :: acc) t

/-- All lines of the input. -/
def splitLines (l : List Char) : List (List Char) := splitLinesAux [] l

/-- The opening-brace character, written by code point to keep brace
characters out of the source text. -/
def braceChar : Char := Char.ofNat 123

/-- Label stripping of ParsePrometheusMetrics:
`if idx := strings.Index(name, "{"); idx > 0 { name = name[:idx] }` —
note the strip happens only for a strictly positive index. -/
def stripLabelsGo (name : List Char) : List Char :=
  match name.findIdx? (fun c => c == braceChar) with
  | some idx => if 0 < idx then name.take idx else name
  | none => name

/-- Numeric value of a digit character. -/
def digitVal (c : Char) : ℕ := c.toNat - 48

/-- All-digit run to a natural number (empty runs give 0; emptiness is
checked by the callers where it matters). -/
def digitsToNat (l : List Char) : Option ℕ :=
  if l.all Char.isDigit then
    some (l.foldl (fun a c => a * 10 + digitVal c) 0)
  else none

/-- Nonempty all-digit run. -/
def digitsToNatNE (l : List Char) : Option ℕ :=
  if l = [] then none else digitsToNat l

/-- Mantissa of a decimal float: digits with at most one dot and at least
one digit overall. -/
def parseMantissa (l : List Char) : Option ℚ :=
  match l.splitOn '.' with
  | [ip] => if ip = [] then none else (digitsToNat ip).map (fun n => (n : ℚ))
  | [ip, fp] =>
      if ip = [] ∧ fp = [] then none
      else
        match digitsToNat ip, digitsToNat fp with
        | some a, some b => some ((a : ℚ) + (b : ℚ) / ((10 : ℚ) ^ fp.length))
        | _, _ => none
  | _ => none

/-- Optionally signed nonempty digit run (exponent part). -/
def parseSignedNat : List Char → Option (Bool × ℕ)
  | '-' :: t => (digitsToNatNE t).map (fun n => (true, n))
  | '+' :: t => (digitsToNatNE t).map (fun n => (false, n))
  | l => (digitsToNatNE l).map (fun n => (false, n))

/-- strconv.ParseFloat for decimal notation: optional sign, mantissa with
optional dot, optional `e`/`E` exponent. -/
def parseFloat (s : List Char) : Option ℚ :=
  let (neg, rest) :=
    match s with
    | '-' :: t => (true, t)
    | '+' :: t => (false, t)
    | t => (false, t)
  let withSign : ℚ → ℚ := fun q => if neg then -q else q
  match rest.findIdx? (fun c => c == 'e' || c == 'E') with
  | none => (parseMantissa rest).map withSign
  | some idx =>
      match parseMantissa (rest.take idx), parseSignedNat (rest.drop (idx + 1)) with
      | some m, some (eneg, e) =>
          some (withSign (if eneg then m / (10 : ℚ) ^ e else m * (10 : ℚ) ^ e))
      | _, _ => none

/-- PrometheusMetric from realtime.go (`Name string; Value float64`). -/
structure PrometheusMetric where
  Name : List Char
  Value : ℚ
deriving DecidableEq, Repr

/-- One iteration of the scan loop of ParsePrometheusMetrics (realtime.go):

```
line := strings.TrimSpace(scanner.Text())
if line == "" || strings.HasPrefix(line, "#") { continue }
parts := strings.Fields(line)
if len(parts) >= 2 {
  name := parts[0]
  if idx := strings.Index(name, "{"); idx > 0 { name = name[:idx] }
  if val, err := strconv.ParseFloat(parts[len(parts)-1], 64); err == nil {
    metrics = append(metrics, PrometheusMetric{Name: name, Value: val})
  }
}
``` -/
def parseMetricLine (raw : List Char) : Option PrometheusMetric :=
  let line := goTrimSpace raw
  if line = [] then none
  else if line.head? = some '#' then none
  else
    let parts := goFields line
    if 2 ≤ parts.length then
      match parseFloat (parts.getLastD []) with
      | some val => some ⟨stripLabelsGo (parts.headD []), val⟩
      | none => none
    else none

/-- ParsePrometheusMetrics from realtime.go: the ordered per-line results. -/
def ParsePrometheusMetrics (data : List Char) : List PrometheusMetric :=
  (splitLines data).filterMap parseMetricLine

/-- The per-line rule exactly as the claim words it: the name is the first
whitespace-delimited token with everything from the first brace onward
stripped (unconditionally), the value is the last token parsed as a float,
and lines whose value fails to parse are dropped (no minimum token count). -/
def claimMetricLine (raw : List Char) : Option PrometheusMetric :=
  let line := goTrimSpace raw
  if line = [] then none
  else if line.head? = some '#' then none
  else
    match goFields line with
    | [] => none
    | parts =>
        (parseFloat (parts.getLastD [])).map
          (fun v => ⟨(parts.headD []).takeWhile (fun c => c ≠ braceChar), v⟩)

/-- The parse result the claim describes. -/
def claimParse (data : List Char) : List PrometheusMetric :=
  (splitLines data).filterMap claimMetricLine

/-- The amended per-line rule: at least two tokens are required; the name is
the first token with everything from the first brace onward stripped unless
the brace is the leading character; the value is the last token parsed as a
float. -/
def amendedMetricLine (raw : List Char) : Option PrometheusMetric :=
  let line := goTrimSpace raw
  if line = [] ∨ line.head? = some '#' then none
  else
    let parts := goFields line
    if parts.length < 2 then none
    else
      let tok := parts.headD []
      let name := if tok.head? = some braceChar then tok
                  else tok.takeWhile (fun c => c ≠ braceChar)
      (parseFloat (parts.getLastD [])).map (fun v => ⟨name, v⟩)

/-- The parse result under the amended rule. -/
def amendedParse (data : List Char) : List PrometheusMetric :=
  (splitLines data).filterMap amendedMetricLine

/-- The S6 scenario input of the specification. -/
def s6Input : List Char :=
  ("# HELP x\nfoo_total\x7ba=\"b\"\x7d 42\nbar 3.14\nbad line\n").toList

/-! ## Live progress monitor (run monitor) and SSE broker (ui/realtime.go) -/

/-- The claim-relevant fields of a LiveProgress snapshot. -/
structure LiveProgressModel where
  Status : String
  ProgressPercent : ℚ
deriving DecidableEq, Repr

/-- Progress computation in the 300 ms tick of startRunMonitor:

```
var progressPercent float64
if expectedSeconds > 0 {
  progressPercent = (elapsed / expectedSeconds) * 100
  if progressPercent > 100 { progressPercent = 99 }
}
``` -/
def runningProgressPercent (elapsed expectedSeconds : ℚ) : ℚ :=
  if 0 < expectedSeconds then
    let p := elapsed / expectedSeconds * 100
    if 100 < p then 99 else p
  else 0

/-- The periodic snapshot published while the monitor loop runs
(`Status: "running"`). -/
def runningSnapshot (elapsed expectedSeconds : ℚ) : LiveProgressModel :=
  { Status := "running",
    ProgressPercent := runningProgressPercent elapsed expectedSeconds }

/-- The single final snapshot built by the stop function returned from
startRunMonitor: `ProgressPercent: 100` with the caller-supplied terminal
status. -/
def finalSnapshot (finalStatus : String) : LiveProgressModel :=
  { Status := finalStatus, ProgressPercent := 100 }

/-- The terminal status the UI handler passes to the stop function:
`if err != nil { stopMonitor("error") } else { stopMonitor("completed") }`. -/
def runFinalStatus (hasError : Bool) : String :=
  if hasError then "error" else "completed"

/-- Buffer capacity of a subscriber channel
(`make(chan *LiveProgress, 10)` in addSubscriber). -/
def subscriberCapacity : ℕ := 10

/-- The non-blocking send of notifySubscribers
(`select { case ch <- progress: default: }`), with a channel modelled as its
queue of undelivered snapshots: enqueue when there is room, drop silently
otherwise.  Totality of this function is the non-blocking property. -/
def trySend (ch : List LiveProgressModel) (m : LiveProgressModel) :
    List LiveProgressModel :=
  if ch.length < subscriberCapacity then ch ++ [m] else ch

/-- The subscriber registry `sseSubscribers.clients`, keyed by run id. -/
def SubscriberMap : Type := ℤ → List (List LiveProgressModel)

/-- notifySubscribers from realtime.go: deliver to every channel registered
for the run, independently. -/
def notifySubscribers (clients : SubscriberMap) (runID : ℤ)
    (m : LiveProgressModel) : SubscriberMap :=
  fun id => if id = runID then (clients id).map (fun ch => trySend ch m)
            else clients id

/-- addSubscriber from realtime.go: append a fresh empty channel for the
run. -/
def addSubscriber (clients : SubscriberMap) (runID : ℤ) : SubscriberMap :=
  fun id => if id = runID then clients id ++ [[]] else clients id

/-! ## Facts about the boundary sequence and the lookup table -/

theorem hbv_length : histogramBucketValues.length = 56 := rfl

theorem hbv_pairwise : histogramBucketValues.Pairwise (· < ·) := by decide

theorem hbv_getD_mono {i j : ℕ} (hij : i < j) (hj : j < numValues) :
    histogramBucketValues.getD i 0 < histogramBucketValues.getD j 0 := by
  have hj' : j < histogramBucketValues.length := hj
  have hi' : i < histogramBucketValues.length := lt_trans hij hj'
  rw [List.getD_eq_getElem _ _ hi', List.getD_eq_getElem _ _ hj']
  have := List.pairwise_iff_get.mp hbv_pairwise ⟨i, hi'⟩ ⟨j, hj'⟩ hij
  simpa using this

theorem hbv_getD_mono_le {i j : ℕ} (hij : i ≤ j) (hj : j < numValues) :
    histogramBucketValues.getD i 0 ≤ histogramBucketValues.getD j 0 := by
  rcases Nat.lt_or_ge i j with h | h
  · exact le_of_lt (hbv_getD_mono h hj)
  · have : i = j := le_antisymm (by omega) h
    simp [this]

theorem hbv_getD_zero : histogramBucketValues.getD 0 0 = 0 := rfl

theorem hbv_getD_nonneg (i : ℕ) : 0 ≤ histogramBucketValues.getD i 0 := by
  by_cases h : i < numValues
  · rcases Nat.eq_zero_or_pos i with rfl | hpos
    · decide
    · have := hbv_getD_mono hpos h
      rw [hbv_getD_zero] at this
      exact le_of_lt this
  · rw [List.getD_eq_default]
    exact Nat.le_of_not_lt h

/-- The invariant of the `init()` loop: after processing `n ≤ 999`, every
boundary strictly below the running index is `≤ n`, the boundary at the
index is `> n`, and the index has not passed 43 (the slot of 1000). -/
theorem v2bIdx_spec : ∀ n : ℕ, n ≤ 999 →
    (∀ j, j < v2bIdx n → histogramBucketValues.getD j 0 ≤ (n : ℤ)) ∧
    (n : ℤ) < histogramBucketValues.getD (v2bIdx n) 0 ∧ v2bIdx n ≤ 43 := by
  intro n
  induction n with
  | zero =>
      intro _
      have h0 : v2bIdx 0 = 1 := by decide
      refine ⟨?_, by decide, by decide⟩
      intro j hj
      rw [h0] at hj
      have : j = 0 := by omega
      subst this
      decide
  | succ m ih =>
      intro hle
      obtain ⟨h1, h2, h3⟩ := ih (by omega)
      have hstep : v2bIdx (m + 1) = v2bStep (v2bIdx m) (m + 1) := rfl
      rw [hstep]
      unfold v2bStep
      by_cases hc : histogramBucketValues.getD (v2bIdx m) 0 ≤ ((m + 1 : ℕ) : ℤ)
      · have heq : histogramBucketValues.getD (v2bIdx m) 0 = ((m : ℤ) + 1) := by
          push_cast at hc
          omega
        have hne43 : v2bIdx m ≠ 43 := by
          intro h43
          rw [h43] at heq
          have : histogramBucketValues.getD 43 0 = 1000 := by decide
          omega
        have hlt43 : v2bIdx m + 1 ≤ 43 := by omega
        rw [if_pos hc]
        refine ⟨?_, ?_, hlt43⟩
        · intro j hj
          rcases Nat.lt_or_ge j (v2bIdx m) with hjm | hjm
          · have := h1 j hjm
            push_cast
            omega
          · have : j = v2bIdx m := by omega
            rw [this, heq]
            push_cast
            omega
        · have hmono := hbv_getD_mono (show v2bIdx m < v2bIdx m + 1 by omega)
            (show v2bIdx m + 1 < numValues by
              have : numValues = 56 := rfl
              omega)
          rw [heq] at hmono
          push_cast
          omega
      · rw [if_neg hc]
        push_cast at hc ⊢
        refine ⟨?_, by omega, h3⟩
        intro j hj
        have := h1 j hj
        omega

/-- Generic helper: `find?` returns the first element satisfying the
predicate. -/
theorem find?_eq_some_of_first {α : Type} (p : α → Bool) :
    ∀ (l : List α) (k : ℕ) (hk : k < l.length),
      p (l.get ⟨k, hk⟩) = true →
      (∀ j (hj : j < l.length), j < k → p (l.get ⟨j, hj⟩) = false) →
      l.find? p = some (l.get ⟨k, hk⟩) := by
  intro l
  induction l with
  | nil => intro k hk; simp at hk
  | cons a t iht =>
      intro k hk hp hfirst
      cases k with
      | zero =>
          simp only [List.get] at hp ⊢
          rw [List.find?_cons_of_pos _ hp]
      | succ k' =>
          have hpa : p a = false := hfirst 0 (by simp) (Nat.succ_pos k')
          simp only [List.get] at hp ⊢
          rw [List.find?_cons_of_neg _ (by simp [hpa])]
          exact iht k' (by simpa using hk) hp
            (fun j hj hjk => hfirst (j + 1) (by simpa using hj) (by omega))

/-- The smallest bucket index whose boundary is `> sv` (56 when none). -/
def leastBoundaryGT (sv : ℤ) : ℕ :=
  histogramBucketValues.findIdx (fun b => decide (sv < b))

/-- The smallest bucket index whose boundary is `≥ s` (56 when none); this is
the index the specification's bucket-assignment rule names. -/
def smallestBoundaryGE (s : ℚ) : ℕ :=
  histogramBucketValues.findIdx (fun (b : ℤ) => decide (s ≤ ((b : ℤ) : ℚ)))

theorem leastBoundaryGT_lt (sv : ℤ) (h : sv ≤ 99999) : leastBoundaryGT sv < 56 := by
  have : leastBoundaryGT sv < histogramBucketValues.length := by
    apply List.findIdx_lt_length_of_exists
    refine ⟨100000, by decide, by simp; omega⟩
  simpa [hbv_length] using this

theorem leastBoundaryGT_prop (sv : ℤ) (h : sv ≤ 99999) :
    sv < histogramBucketValues.getD (leastBoundaryGT sv) 0 := by
  have hlt := leastBoundaryGT_lt sv h
  have hlen : leastBoundaryGT sv < histogramBucketValues.length := by
    rw [hbv_length]; exact hlt
  have := @List.findIdx_getElem _ (fun b => decide (sv < b)) histogramBucketValues hlen
  rw [List.getD_eq_getElem _ _ hlen]
  simpa [leastBoundaryGT] using this

theorem leastBoundaryGT_min (sv : ℤ) {j : ℕ} (hj : j < leastBoundaryGT sv) :
    histogramBucketValues.getD j 0 ≤ sv := by
  change j < histogramBucketValues.findIdx (fun b => decide (sv < b)) at hj
  have hlen : j < histogramBucketValues.length := by
    have hfl : histogramBucketValues.findIdx (fun b => decide (sv < b)) ≤
        histogramBucketValues.length := List.findIdx_le_length _
    rw [hbv_length] at hfl ⊢
    omega
  have := List.not_of_lt_findIdx hj
  rw [List.getD_eq_getElem _ _ hlen]
  simpa using this

/-- Any index with the first-index property equals `leastBoundaryGT`. -/
theorem leastBoundaryGT_unique (sv : ℤ) (k : ℕ) (hk : k < 56)
    (h1 : sv < histogramBucketValues.getD k 0)
    (h2 : ∀ j, j < k → histogramBucketValues.getD j 0 ≤ sv) :
    leastBoundaryGT sv = k := by
  have hsv : sv ≤ 99999 := by
    have hnn := h1
    have : histogramBucketValues.getD k 0 ≤ 100000 := by
      have h55 : histogramBucketValues.getD 55 0 = 100000 := by decide
      rcases Nat.lt_or_ge k 55 with h | h
      · have := hbv_getD_mono h (by decide)
        omega
      · have : k = 55 := by omega
        rw [this, h55]
    omega
  by_contra hne
  rcases Nat.lt_or_ge (leastBoundaryGT sv) k with hlt | hge
  · have := h2 _ hlt
    have := leastBoundaryGT_prop sv hsv
    omega
  · have hkl : k < leastBoundaryGT sv := by omega
    have := leastBoundaryGT_min sv hkl
    omega

/-- The table lookup and the linear scan of `lookUpIdx` agree: for scaled
integers in range, the result is the smallest index whose boundary is
strictly greater. -/
theorem lookUpIdx_eq (sv : ℤ) (h0 : 0 ≤ sv) (h1 : sv ≤ 99999) :
    lookUpIdx sv = some (leastBoundaryGT sv) := by
  unfold lookUpIdx
  by_cases hlt : sv < maxArrayValue
  · rw [if_pos hlt, if_neg (by omega)]
    congr 1
    have hn : sv.toNat ≤ 999 := by
      have : maxArrayValue = 1000 := rfl
      omega
    obtain ⟨ha, hb, hc⟩ := v2bIdx_spec sv.toNat hn
    have hcast : ((sv.toNat : ℤ)) = sv := Int.toNat_of_nonneg h0
    refine (leastBoundaryGT_unique sv _ (by omega) ?_ ?_).symm
    · rw [← hcast]; exact hb
    · intro j hj
      have := ha j hj
      rw [← hcast]
      exact this
  · rw [if_neg hlt]
    have hge : (1000 : ℤ) ≤ sv := by
      have : maxArrayValue = 1000 := rfl
      omega
    have hblt : leastBoundaryGT sv < 56 := leastBoundaryGT_lt sv h1
    have hbprop := leastBoundaryGT_prop sv h1
    have hb44 : 44 ≤ leastBoundaryGT sv := by
      by_contra hcon
      have hle43 : leastBoundaryGT sv ≤ 43 := by omega
      have hmle : histogramBucketValues.getD (leastBoundaryGT sv) 0 ≤
          histogramBucketValues.getD 43 0 := hbv_getD_mono_le hle43 (by decide)
      have h43 : histogramBucketValues.getD 43 0 = 1000 := by decide
      omega
    have hmi : maxArrayValueIndex = 43 := by decide
    have hnv : numValues = 56 := rfl
    rw [hmi, hnv]
    have hlen : ((List.range 56).drop 43).length = 13 := by simp
    have hk : leastBoundaryGT sv - 43 < ((List.range 56).drop 43).length := by omega
    have hgetk : ((List.range 56).drop 43).get ⟨leastBoundaryGT sv - 43, hk⟩ =
        leastBoundaryGT sv := by
      rw [List.get_eq_getElem, List.getElem_drop]
      simp only [List.getElem_range]
      omega
    have := find?_eq_some_of_first
      (fun i => decide (sv < histogramBucketValues.getD i 0))
      ((List.range 56).drop 43) (leastBoundaryGT sv - 43) hk ?_ ?_
    · rw [hgetk] at this
      exact this
    · rw [hgetk]
      simpa using hbprop
    · intro j hj hjk
      have hgj : ((List.range 56).drop 43).get ⟨j, hj⟩ = 43 + j := by
        rw [List.get_eq_getElem, List.getElem_drop]
        simp [List.getElem_range]
      rw [hgj]
      have : 43 + j < leastBoundaryGT sv := by omega
      have := leastBoundaryGT_min sv this
      simpa using this

/-- Generic helper: `findIdx` only depends on the predicate's values on the
list. -/
theorem findIdx_congr {α : Type} (p q : α → Bool) :
    ∀ (l : List α), (∀ a ∈ l, p a = q a) → l.findIdx p = l.findIdx q := by
  intro l
  induction l with
  | nil => intro _; rfl
  | cons a t iht =>
      intro h
      have ha := h a (by simp)
      rw [List.findIdx_cons, List.findIdx_cons, ha,
        iht (fun x hx => h x (by simp [hx]))]

theorem smallestBoundaryGE_lt (s : ℚ) (h : s ≤ 100000) :
    smallestBoundaryGE s < 56 := by
  have : smallestBoundaryGE s < histogramBucketValues.length := by
    apply List.findIdx_lt_length_of_exists
    exact ⟨100000, by decide, by simp; exact_mod_cast h⟩
  simpa [hbv_length] using this

theorem smallestBoundaryGE_prop (s : ℚ) (h : s ≤ 100000) :
    s ≤ ((histogramBucketValues.getD (smallestBoundaryGE s) 0 : ℤ) : ℚ) := by
  have hlt := smallestBoundaryGE_lt s h
  have hlen : smallestBoundaryGE s < histogramBucketValues.length := by
    rw [hbv_length]; exact hlt
  have := @List.findIdx_getElem _ (fun (b : ℤ) => decide (s ≤ ((b : ℤ) : ℚ)))
    histogramBucketValues hlen
  rw [List.getD_eq_getElem _ _ hlen]
  simpa [smallestBoundaryGE] using this

theorem smallestBoundaryGE_min (s : ℚ) {j : ℕ} (hj : j < smallestBoundaryGE s) :
    ((histogramBucketValues.getD j 0 : ℤ) : ℚ) < s := by
  unfold smallestBoundaryGE at hj
  have hlen : j < histogramBucketValues.length := by
    have hfl : histogramBucketValues.findIdx
          (fun (b : ℤ) => decide (s ≤ ((b : ℤ) : ℚ))) ≤
        histogramBucketValues.length := List.findIdx_le_length _
    omega
  have := List.not_of_lt_findIdx hj
  rw [List.getD_eq_getElem _ _ hlen]
  simp only [decide_eq_false_iff_not, not_le] at this
  exact this

/-- A scaled value is epsilon-safe when its fractional part is zero or at
least the `1e-12` adjustment distance of `Histogram.record`. -/
def epsSafe (s : ℚ) : Prop :=
  s = (⌊s⌋ : ℚ) ∨ recordEpsilon ≤ s - (⌊s⌋ : ℚ)

instance (s : ℚ) : Decidable (epsSafe s) := by
  unfold epsSafe
  infer_instance

theorem goInt_of_pos {s : ℚ} (h : 0 < s) : goInt s = ⌊s⌋ := by
  unfold goInt
  rw [if_neg (not_lt.mpr (le_of_lt h))]

/-- Bucket assignment, low case: a non-positive scaled value lands in
bucket 0. -/
theorem bucketIdx_low (o d v : ℚ) (h : scaledOf o d v ≤ 0) :
    bucketIdx o d v = some 0 := by
  unfold bucketIdx
  have : firstValue = 0 := rfl
  simp only [this]
  rw [if_pos h]

/-- Bucket assignment, overflow case: a scaled value above the largest
boundary lands in the last bucket. -/
theorem bucketIdx_high (o d v : ℚ) (h : 100000 < scaledOf o d v) :
    bucketIdx o d v = some (numBuckets - 1) := by
  unfold bucketIdx
  have h1 : firstValue = 0 := rfl
  have h2 : lastValue = 100000 := rfl
  simp only [h1, h2]
  rw [if_neg (by linarith), if_pos h]

/-- Bucket assignment, panic case: a scaled value strictly between 0 and the
epsilon makes `svInt` equal to `-1` and the Go code panics on
`val2Bucket[-1]`. -/
theorem bucketIdx_panic (o d v : ℚ) (h0 : 0 < scaledOf o d v)
    (h1 : scaledOf o d v < recordEpsilon) :
    bucketIdx o d v = none := by
  unfold bucketIdx
  have hf : firstValue = 0 := rfl
  have hl : lastValue = 100000 := rfl
  set s := scaledOf o d v with hs
  have hs1 : s < 1 := lt_trans h1 (by norm_num [recordEpsilon])
  have hfloor : ⌊s⌋ = 0 := by
    rw [Int.floor_eq_zero_iff]
    constructor <;> simp_all <;> linarith
  simp only [hf, hl]
  rw [if_neg (by linarith), if_neg (by rw [hl] at *; nlinarith [hs1])]
  rw [goInt_of_pos h0, hfloor]
  rw [if_pos (by push_cast; linarith)]
  unfold lookUpIdx
  rw [if_pos (by norm_num [maxArrayValue]), if_pos (by norm_num)]

/-- Bucket assignment, epsilon-safe case: the index is the smallest one whose
boundary is `≥ s`, treating a value exactly on a boundary as belonging to
that boundary's bucket. -/
theorem bucketIdx_safe (o d v : ℚ) (h0 : 0 < scaledOf o d v)
    (h1 : scaledOf o d v ≤ 100000) (h2 : epsSafe (scaledOf o d v)) :
    bucketIdx o d v = some (smallestBoundaryGE (scaledOf o d v)) := by
  unfold bucketIdx
  have hf : firstValue = 0 := rfl
  have hl : lastValue = 100000 := rfl
  set s := scaledOf o d v with hs
  simp only [hf, hl]
  rw [if_neg (by linarith), if_neg (by push_neg; exact h1)]
  rw [goInt_of_pos h0]
  have hfl : (⌊s⌋ : ℚ) ≤ s := Int.floor_le s
  rcases h2 with hint | hfrac
  · -- s is an integer: the epsilon branch fires and looks up ⌊s⌋ - 1
    have hdelta : s - (⌊s⌋ : ℚ) < recordEpsilon := by
      rw [← hint]
      norm_num [recordEpsilon]
    rw [if_pos hdelta]
    have hge1 : 1 ≤ ⌊s⌋ := by
      by_contra hcon
      push_neg at hcon
      have : ⌊s⌋ ≤ 0 := by omega
      have : (⌊s⌋ : ℚ) ≤ 0 := by exact_mod_cast this
      rw [← hint] at this
      linarith
    have hle : ⌊s⌋ ≤ 100000 := by
      have : (⌊s⌋ : ℚ) ≤ 100000 := le_trans hfl h1
      exact_mod_cast this
    rw [lookUpIdx_eq _ (by omega) (by omega)]
    congr 1
    unfold leastBoundaryGT smallestBoundaryGE
    apply findIdx_congr
    intro b _
    have hiff : (⌊s⌋ - 1 < b) ↔ (s ≤ ((b : ℤ) : ℚ)) := by
      constructor
      · intro h
        have hb : ⌊s⌋ ≤ b := by omega
        have hcast : (⌊s⌋ : ℚ) ≤ ((b : ℤ) : ℚ) := by exact_mod_cast hb
        rw [hint]
        exact hcast
      · intro h
        rw [hint] at h
        have hb : ⌊s⌋ ≤ b := by exact_mod_cast h
        omega
    simp [hiff]
  · -- fractional part at least epsilon: no adjustment, look up ⌊s⌋
    rw [if_neg (by push_neg; exact hfrac)]
    have hpos : (0 : ℚ) < s - (⌊s⌋ : ℚ) := lt_of_lt_of_le (by norm_num [recordEpsilon]) hfrac
    have hle : ⌊s⌋ ≤ 99999 := by
      by_contra hcon
      push_neg at hcon
      have : (100000 : ℚ) ≤ (⌊s⌋ : ℚ) := by exact_mod_cast hcon
      linarith
    have h0' : 0 ≤ ⌊s⌋ := Int.floor_nonneg.mpr (le_of_lt h0)
    rw [lookUpIdx_eq _ h0' hle]
    congr 1
    unfold leastBoundaryGT smallestBoundaryGE
    apply findIdx_congr
    intro b _
    have hiff : (⌊s⌋ < b) ↔ (s ≤ (b : ℚ)) := by
      constructor
      · intro h
        have : (⌊s⌋ : ℚ) + 1 ≤ (b : ℚ) := by exact_mod_cast h
        have := Int.lt_floor_add_one s
        linarith
      · intro h
        have : (⌊s⌋ : ℚ) < (b : ℚ) := by linarith
        exact_mod_cast this
    simp [hiff]

/-- Bucket assignment in the epsilon zone above a positive boundary: values
within `1e-12` above an integer are bucketed as that integer. -/
theorem bucketIdx_epsZone (o d v : ℚ) (h0 : 0 < scaledOf o d v)
    (h1 : scaledOf o d v ≤ 100000)
    (hfrac0 : (⌊scaledOf o d v⌋ : ℚ) < scaledOf o d v)
    (hfrac1 : scaledOf o d v - (⌊scaledOf o d v⌋ : ℚ) < recordEpsilon)
    (hge1 : 1 ≤ ⌊scaledOf o d v⌋) :
    bucketIdx o d v = some (smallestBoundaryGE ((⌊scaledOf o d v⌋ : ℤ) : ℚ)) := by
  unfold bucketIdx
  have hf : firstValue = 0 := rfl
  have hl : lastValue = 100000 := rfl
  set s := scaledOf o d v with hs
  simp only [hf, hl]
  rw [if_neg (by linarith), if_neg (by push_neg; exact h1)]
  rw [goInt_of_pos h0]
  rw [if_pos hfrac1]
  have hle : ⌊s⌋ ≤ 100000 := by
    have : (⌊s⌋ : ℚ) ≤ 100000 := le_trans (Int.floor_le s) h1
    exact_mod_cast this
  rw [lookUpIdx_eq _ (by omega) (by omega)]
  congr 1
  unfold leastBoundaryGT smallestBoundaryGE
  apply findIdx_congr
  intro b _
  have : (⌊s⌋ - 1 < b) ↔ (((⌊s⌋ : ℤ) : ℚ) ≤ (b : ℚ)) := by
    constructor
    · intro h
      exact_mod_cast (by omega : ⌊s⌋ ≤ b)
    · intro h
      have : ⌊s⌋ ≤ b := by exact_mod_cast h
      omega
  simp [this]

/-- Any successful `lookUpIdx` result is a proper boundary index. -/
theorem lookUpIdx_le (sv : ℤ) {b : ℕ} (h : lookUpIdx sv = some b) : b ≤ 55 := by
  unfold lookUpIdx at h
  split_ifs at h with hd1 hd2
  · simp only [Option.some.injEq] at h
    subst h
    have hle : sv.toNat ≤ 999 := by
      have hma : maxArrayValue = 1000 := rfl
      rw [hma] at hd1
      omega
    have := (v2bIdx_spec sv.toNat hle).2.2
    omega
  · have hmem := List.mem_of_find?_eq_some h
    have hmem2 : b ∈ List.range numValues := List.mem_of_mem_drop hmem
    have hb : b < numValues := List.mem_range.mp hmem2
    have hnv : numValues = 56 := rfl
    omega

/-- Any successful bucket lookup lands inside the array. -/
theorem bucketIdx_le (o d v : ℚ) {b : ℕ} (h : bucketIdx o d v = some b) :
    b ≤ 56 := by
  unfold bucketIdx at h
  dsimp only at h
  split_ifs at h with hc1 hc2
  · simp only [Option.some.injEq] at h
    omega
  · simp only [Option.some.injEq] at h
    have : numBuckets = 57 := rfl
    omega
  · exact le_trans (lookUpIdx_le _ h) (by omega)
  · exact le_trans (lookUpIdx_le _ h) (by omega)

/-! ## Invariants of record-built histograms -/

theorem getD_set_self (l : List ℤ) (i : ℕ) (a : ℤ) (h : i < l.length) :
    (l.set i a).getD i 0 = a := by
  rw [List.getD_eq_getElem _ _ (by simpa using h)]
  exact List.getElem_set_self (by simpa using h)

theorem getD_set_other (l : List ℤ) {i j : ℕ} (a : ℤ) (h : i ≠ j) :
    (l.set i a).getD j 0 = l.getD j 0 := by
  by_cases hj : j < l.length
  · rw [List.getD_eq_getElem _ _ (by simpa using hj),
      List.getD_eq_getElem _ _ hj]
    exact List.getElem_set_ne h _
  · rw [List.getD_eq_default _ _ (by simpa using Nat.le_of_not_lt hj),
      List.getD_eq_default _ _ (Nat.le_of_not_lt hj)]

theorem sum_set_getD : ∀ (l : List ℤ) (i : ℕ) (a : ℤ), i < l.length →
    (l.set i a).sum = l.sum - l.getD i 0 + a := by
  intro l
  induction l with
  | nil => intro i a h; simp at h
  | cons x t iht =>
      intro i a h
      cases i with
      | zero => simp [List.set]; ring
      | succ i' =>
          simp only [List.set, List.sum_cons, List.getD_cons_succ]
          rw [iht i' a (by simpa using h)]
          ring

theorem sum_nonneg_of_getD (l : List ℤ) (h : ∀ i, 0 ≤ l.getD i 0) :
    0 ≤ l.sum := by
  apply List.sum_nonneg
  intro x hx
  obtain ⟨i, hi, rfl⟩ := List.mem_iff_getElem.mp hx
  have := h i
  rwa [List.getD_eq_getElem _ _ hi] at this

theorem all_zero_of_sum_zero : ∀ (l : List ℤ), (∀ i, 0 ≤ l.getD i 0) →
    l.sum = 0 → ∀ i, l.getD i 0 = 0 := by
  intro l
  induction l with
  | nil => intro _ _ i; simp
  | cons x t iht =>
      intro hnn hsum i
      have hx : 0 ≤ x := by have := hnn 0; simpa using this
      have ht : 0 ≤ t.sum := sum_nonneg_of_getD t (fun j => by
        have := hnn (j + 1); simpa using this)
      have hsum' : x + t.sum = 0 := by simpa using hsum
      have hx0 : x = 0 := by omega
      have hts : t.sum = 0 := by omega
      cases i with
      | zero => simpa using hx0
      | succ i' =>
          rw [List.getD_cons_succ]
          exact iht (fun j => by have := hnn (j + 1); simpa using this) hts i'

/-- The state after a successful `RecordN` into bucket `b`. -/
def Histogram.bump (h : Histogram) (v : ℚ) (n : ℤ) (b : ℕ) : Histogram :=
  { h with counter := h.counter.RecordN v n, Hdata := h.Hdata.set b (h.Hdata.getD b 0 + n) }

/-- Unfolding of a successful `RecordN`. -/
theorem recordN_some_iff {h : Histogram} {v : ℚ} {n : ℤ} {h' : Histogram} :
    h.RecordN v n = some h' ↔
    ∃ b, bucketIdx h.Offset h.Divider v = some b ∧ h' = h.bump v n b := by
  unfold Histogram.RecordN Histogram.record Histogram.bump
  cases hb : bucketIdx h.Offset h.Divider v with
  | none => simp [hb]
  | some b => simp [hb, eq_comm]

/-- Reachability invariant maintained by `NewHistogram` and `RecordN` with
positive multiplicities; `P` collects the recorded values. -/
structure HistInv (offset divider : ℚ) (P : ℚ → Prop) (h : Histogram) : Prop where
  offset_eq : h.Offset = offset
  divider_eq : h.Divider = divider
  len : h.Hdata.length = numBuckets
  nonneg : ∀ i, 0 ≤ h.Hdata.getD i 0
  sum_eq : h.Hdata.sum = h.counter.Count
  witness : ∀ b, h.Hdata.getD b 0 ≠ 0 →
    ∃ v, P v ∧ bucketIdx offset divider v = some b ∧
      h.counter.Min ≤ v ∧ v ≤ h.counter.Max
  min_le_max : h.counter.Count ≠ 0 → h.counter.Min ≤ h.counter.Max

theorem HistInv.count_nonneg {o d : ℚ} {P : ℚ → Prop} {h : Histogram}
    (inv : HistInv o d P h) : 0 ≤ h.counter.Count := by
  rw [← inv.sum_eq]
  exact sum_nonneg_of_getD _ inv.nonneg

theorem histInv_new {o d : ℚ} {P : ℚ → Prop} {h0 : Histogram}
    (h : NewHistogram o d = some h0) : HistInv o d P h0 := by
  unfold NewHistogram at h
  split_ifs at h
  simp only [Option.some.injEq] at h
  subst h
  refine ⟨rfl, rfl, by simp, ?_, ?_, ?_, ?_⟩
  · intro i
    by_cases hi : i < numBuckets
    · rw [List.getD_eq_getElem _ _ (by simpa using hi)]
      simp
    · rw [List.getD_eq_default _ _ (by simpa using Nat.le_of_not_lt hi)]
  · simp [Counter.empty]
  · intro b hb
    exfalso
    apply hb
    by_cases hi : b < numBuckets
    · rw [List.getD_eq_getElem _ _ (by simpa using hi)]
      simp
    · rw [List.getD_eq_default _ _ (by simpa using Nat.le_of_not_lt hi)]
  · intro hc
    exact absurd rfl hc

theorem bump_counter (h : Histogram) (v : ℚ) (n : ℤ) (b : ℕ) :
    (h.bump v n b).counter = h.counter.RecordN v n := rfl

theorem bump_Hdata (h : Histogram) (v : ℚ) (n : ℤ) (b : ℕ) :
    (h.bump v n b).Hdata = h.Hdata.set b (h.Hdata.getD b 0 + n) := rfl

theorem bump_Offset (h : Histogram) (v : ℚ) (n : ℤ) (b : ℕ) :
    (h.bump v n b).Offset = h.Offset := rfl

theorem bump_Divider (h : Histogram) (v : ℚ) (n : ℤ) (b : ℕ) :
    (h.bump v n b).Divider = h.Divider := rfl

theorem recordN_min_le {c : Counter} {v : ℚ} {n : ℤ} (hcz : c.Count ≠ 0) :
    (c.RecordN v n).Min ≤ c.Min := by
  simp only [Counter.RecordN, if_neg hcz]
  split_ifs with hlt
  · exact le_of_lt hlt
  · exact le_refl _

theorem recordN_max_ge {c : Counter} {v : ℚ} {n : ℤ} (hcz : c.Count ≠ 0) :
    c.Max ≤ (c.RecordN v n).Max := by
  simp only [Counter.RecordN, if_neg hcz]
  split_ifs with hlt hgt
  · exact le_refl _
  · exact le_of_lt hgt
  · exact le_refl _

theorem recordN_min_le_v {c : Counter} {v : ℚ} {n : ℤ} (hcz : c.Count ≠ 0) :
    (c.RecordN v n).Min ≤ v := by
  simp only [Counter.RecordN, if_neg hcz]
  split_ifs with hlt
  · exact le_refl _
  · exact le_of_not_lt hlt

theorem recordN_v_le_max {c : Counter} {v : ℚ} {n : ℤ} (hcz : c.Count ≠ 0)
    (hmm : c.Min ≤ c.Max) : v ≤ (c.RecordN v n).Max := by
  simp only [Counter.RecordN, if_neg hcz]
  split_ifs with hlt hgt
  · linarith
  · exact le_refl _
  · exact le_of_not_lt hgt

theorem histInv_record {o d : ℚ} {P : ℚ → Prop} {h h' : Histogram} {v : ℚ}
    {n : ℤ} (inv : HistInv o d P h) (hn : 1 ≤ n) (hv : P v)
    (hrec : h.RecordN v n = some h') : HistInv o d P h' := by
  obtain ⟨b, hb, rfl⟩ := recordN_some_iff.mp hrec
  rw [inv.offset_eq, inv.divider_eq] at hb
  have hble : b ≤ 56 := bucketIdx_le _ _ _ hb
  have hblt : b < h.Hdata.length := by
    rw [inv.len]
    have : numBuckets = 57 := rfl
    omega
  have hcount0 : 0 ≤ h.counter.Count := inv.count_nonneg
  constructor
  · exact inv.offset_eq
  · exact inv.divider_eq
  · rw [bump_Hdata]
    simpa using inv.len
  · intro i
    rw [bump_Hdata]
    by_cases hib : i = b
    · subst hib
      rw [getD_set_self _ _ _ hblt]
      have := inv.nonneg i
      omega
    · rw [getD_set_other _ _ (by omega : b ≠ i)]
      exact inv.nonneg i
  · rw [bump_Hdata, bump_counter, sum_set_getD _ _ _ hblt]
    simp only [Counter.RecordN]
    rw [inv.sum_eq]
    ring
  · intro b' hb'
    rw [bump_Hdata] at hb'
    rw [bump_counter]
    by_cases hcz : h.counter.Count = 0
    · -- first record: all old buckets are zero, so b' = b
      have hall := all_zero_of_sum_zero h.Hdata inv.nonneg
        (by rw [inv.sum_eq, hcz])
      have hbb : b' = b := by
        by_contra hne
        rw [getD_set_other _ _ (by omega : b ≠ b')] at hb'
        exact hb' (hall b')
      subst hbb
      refine ⟨v, hv, hb, ?_, ?_⟩ <;> simp [Counter.RecordN, hcz]
    · -- later record: Min only decreases, Max only increases
      have hmm := inv.min_le_max hcz
      by_cases hbb : b' = b
      · subst hbb
        exact ⟨v, hv, hb, recordN_min_le_v hcz, recordN_v_le_max hcz hmm⟩
      · rw [getD_set_other _ _ (by omega : b ≠ b')] at hb'
        obtain ⟨w, hPw, hbw, hw1, hw2⟩ := inv.witness b' hb'
        exact ⟨w, hPw, hbw, le_trans (recordN_min_le hcz) hw1,
          le_trans hw2 (recordN_max_ge hcz)⟩
  · intro _
    rw [bump_counter]
    by_cases hcz : h.counter.Count = 0
    · simp [Counter.RecordN, hcz]
    · have hmm := inv.min_le_max hcz
      simp only [Counter.RecordN, if_neg hcz]
      split_ifs with hlt hgt
      · linarith
      · linarith
      · exact hmm

/-- The fold of `buildHistogram` preserves the invariant. -/
theorem foldlM_inv {o d : ℚ} {P : ℚ → Prop} :
    ∀ (recs : List (ℚ × ℤ)) (h0 h : Histogram), HistInv o d P h0 →
      (∀ r ∈ recs, P r.1 ∧ 1 ≤ r.2) →
      recs.foldlM (fun h r => h.RecordN r.1 r.2) h0 = some h →
      HistInv o d P h := by
  intro recs
  induction recs with
  | nil =>
      intro h0 h inv _ hfold
      simp only [List.foldlM_nil, Option.pure_def, Option.some.injEq] at hfold
      subst hfold
      exact inv
  | cons r t iht =>
      intro h0 h inv hall hfold
      rw [List.foldlM_cons] at hfold
      cases hstep : h0.RecordN r.1 r.2 with
      | none => rw [hstep] at hfold; simp at hfold
      | some h1 =>
          rw [hstep] at hfold
          simp only [Option.bind_eq_bind, Option.some_bind] at hfold
          have hr := hall r (by simp)
          exact iht h1 h (histInv_record inv hr.2 hr.1 hstep)
            (fun x hx => hall x (by simp [hx])) hfold

/-- Any successfully built histogram satisfies the invariant, with `P`
collecting exactly the recorded values. -/
theorem buildHistogram_inv {o d : ℚ} {recs : List (ℚ × ℤ)} {h : Histogram}
    (hb : buildHistogram o d recs = some h) (hpos : ∀ r ∈ recs, 1 ≤ r.2) :
    HistInv o d (fun v => ∃ n, (v, n) ∈ recs) h := by
  unfold buildHistogram at hb
  cases hnew : NewHistogram o d with
  | none => rw [hnew] at hb; simp at hb
  | some h0 =>
      rw [hnew] at hb
      simp only [Option.bind_eq_bind, Option.some_bind] at hb
      exact foldlM_inv recs h0 h (histInv_new hnew)
        (fun r hr => ⟨⟨r.2, by simpa using hr⟩, hpos r hr⟩) hb

/-! ## Structure of the exported data -/

/-- The partial sum of the first `k` bucket counts. -/
def sumTo (hdata : List ℤ) (k : ℕ) : ℤ :=
  ((List.range k).map (fun i => hdata.getD i 0)).sum

theorem sumTo_succ (hdata : List ℤ) (k : ℕ) :
    sumTo hdata (k + 1) = sumTo hdata k + hdata.getD k 0 := by
  unfold sumTo
  rw [List.range_succ, List.map_append, List.sum_append]
  simp

theorem sumTo_zero_of_all_zero (hdata : List ℤ) (k : ℕ)
    (h : ∀ j, j < k → hdata.getD j 0 = 0) : sumTo hdata k = 0 := by
  induction k with
  | zero => rfl
  | succ m ihm =>
      rw [sumTo_succ, ihm (fun j hj => h j (by omega)), h m (by omega)]
      ring

theorem range_map_getD : ∀ (l : List ℤ),
    (List.range l.length).map (fun i => l.getD i 0) = l := by
  intro l
  induction l with
  | nil => simp
  | cons x t iht =>
      rw [List.length_cons, List.range_succ_eq_map, List.map_cons, List.map_map]
      have hcomp : ((fun i => (x :: t).getD i 0) ∘ Nat.succ) =
          fun i => t.getD i 0 := by
        funext i
        simp
      rw [hcomp, iht]
      simp

theorem sumTo_full (hdata : List ℤ) : sumTo hdata hdata.length = hdata.sum := by
  unfold sumTo
  rw [range_map_getD]

/-- Adjacent exported buckets never overlap leftwards: each `End` is at most
the next `Start`. -/
def PairsOK (data : List Bucket) : Prop :=
  ∀ i, i + 1 < data.length →
    (data.getD i default).End ≤ (data.getD (i + 1) default).Start

theorem pairsOK_nil : PairsOK [] := by
  intro i hi
  simp at hi

theorem pairsOK_singleton (b : Bucket) : PairsOK [b] := by
  intro i hi
  simp at hi

theorem getLast?_eq_getD {data : List Bucket} (h : data ≠ []) :
    data.getLast? = some (data.getD (data.length - 1) default) := by
  have hlen : 0 < data.length := List.length_pos.mpr h
  rw [List.getLast?_eq_getElem?, List.getElem?_eq_getElem (by omega),
    List.getD_eq_getElem _ _ (by omega)]

theorem pairsOK_append_one {data : List Bucket} {lb b : Bucket}
    (hp : PairsOK data) (hlast : data.getLast? = some lb)
    (hle : lb.End ≤ b.Start) : PairsOK (data ++ [b]) := by
  have hne : data ≠ [] := by
    intro hcon
    rw [hcon] at hlast
    simp at hlast
  have hlen : 0 < data.length := List.length_pos.mpr hne
  intro i hi
  rw [List.length_append, List.length_singleton] at hi
  by_cases hin : i + 1 < data.length
  · rw [List.getD_append _ _ _ _ (by omega), List.getD_append _ _ _ _ hin]
    exact hp i hin
  · have hieq : i + 1 = data.length := by omega
    rw [List.getD_append _ _ _ _ (by omega)]
    rw [hieq, List.getD_append_right _ _ _ _ (by omega)]
    simp only [Nat.sub_self, List.getD_cons_zero]
    rw [getLast?_eq_getD hne] at hlast
    have : data.getD (data.length - 1) default = lb := by
      injection hlast
    rw [show i = data.length - 1 by omega, this]
    exact hle

/-- The export loop as a function of the number of processed buckets. -/
def exportFold (h : Histogram) (k : ℕ) : ExportState :=
  (List.range k).foldl
    (exportStep h.counter.Min h.counter.Max h.Offset h.Divider
      (h.counter.Count : ℚ) h.Hdata)
    ⟨histogramBucketValues.getD 0 0, 0, []⟩

theorem exportFold_succ (h : Histogram) (k : ℕ) :
    exportFold h (k + 1) =
      exportStep h.counter.Min h.counter.Max h.Offset h.Divider
        (h.counter.Count : ℚ) h.Hdata (exportFold h k) k := by
  unfold exportFold
  rw [List.range_succ, List.foldl_append]
  rfl

theorem export_eq_fold (h : Histogram) {lastIdx : ℕ}
    (hfind : findLastIdx h.Hdata = some lastIdx) :
    h.Export = { Count := h.counter.Count, Min := h.counter.Min,
                 Max := h.counter.Max, Sum := h.counter.Sum,
                 Avg := h.counter.Avg,
                 Data := setLastEnd h.counter.Max (exportFold h (lastIdx + 1)).data } := by
  unfold Histogram.Export exportFold
  rw [hfind]

theorem find?_reverse_range_spec (p : ℕ → Bool) :
    ∀ (n : ℕ) (k : ℕ), ((List.range n).reverse).find? p = some k →
      k < n ∧ p k = true ∧ ∀ j, k < j → j < n → p j = false := by
  intro n
  induction n with
  | zero => intro k h; simp at h
  | succ m ihm =>
      intro k h
      rw [List.range_succ, List.reverse_append] at h
      simp only [List.reverse_singleton, List.singleton_append] at h
      by_cases hp : p m = true
      · rw [List.find?_cons_of_pos _ hp] at h
        have hk : k = m := by injection h with h; omega
        subst hk
        exact ⟨by omega, hp, fun j hj1 hj2 => by omega⟩
      · rw [List.find?_cons_of_neg _ (by simpa using hp)] at h
        obtain ⟨h1, h2, h3⟩ := ihm k h
        refine ⟨by omega, h2, fun j hj1 hj2 => ?_⟩
        rcases Nat.lt_or_ge j m with hjm | hjm
        · exact h3 j hj1 hjm
        · have hjem : j = m := by omega
          subst hjem
          simpa using hp

theorem findLastIdx_spec {hdata : List ℤ} {k : ℕ}
    (h : findLastIdx hdata = some k) :
    k < numBuckets ∧ 0 < hdata.getD k 0 ∧
      ∀ j, k < j → j < numBuckets → hdata.getD j 0 ≤ 0 := by
  obtain ⟨h1, h2, h3⟩ := find?_reverse_range_spec _ numBuckets k h
  refine ⟨h1, by simpa using h2, fun j hj1 hj2 => ?_⟩
  have := h3 j hj1 hj2
  simpa using this

theorem findLastIdx_isSome {hdata : List ℤ} {i : ℕ} (hi : i < numBuckets)
    (hpos : 0 < hdata.getD i 0) : ∃ k, findLastIdx hdata = some k := by
  cases hf : findLastIdx hdata with
  | some k => exact ⟨k, rfl⟩
  | none =>
      exfalso
      have := List.find?_eq_none.mp hf i
        (by rw [List.mem_reverse, List.mem_range]; exact hi)
      simp only [decide_eq_true_eq] at this
      exact this hpos

/-- Appending one bucket to a well-formed data prefix. -/
theorem data_append_inv {data : List Bucket} {b : Bucket} {t : ℤ} {mn e : ℚ}
    (hne : data ≠ [])
    (hsum : (data.map Bucket.Count).sum = t)
    (hhead : data.head?.map Bucket.Start = some mn)
    (hlast : data.getLast?.map Bucket.End = some e)
    (hpairs : PairsOK data)
    (hle : e ≤ b.Start) :
    (data ++ [b] ≠ []) ∧
    ((data ++ [b]).map Bucket.Count).sum = t + b.Count ∧
    (data ++ [b]).head?.map Bucket.Start = some mn ∧
    (data ++ [b]).getLast?.map Bucket.End = some b.End ∧
    PairsOK (data ++ [b]) := by
  obtain ⟨lb, hlb, hlbe⟩ : ∃ lb, data.getLast? = some lb ∧ lb.End = e := by
    cases hgl : data.getLast? with
    | none => rw [hgl] at hlast; simp at hlast
    | some lb =>
        rw [hgl] at hlast
        simp only [Option.map_some', Option.some.injEq] at hlast
        exact ⟨lb, rfl, hlast⟩
  refine ⟨by simp, ?_, ?_, ?_, ?_⟩
  · rw [List.map_append, List.sum_append, hsum]
    simp
  · cases hhd : data.head? with
    | none => rw [hhd] at hhead; simp at hhead
    | some hd =>
        rw [hhd] at hhead
        rw [List.head?_append, hhd]
        simpa using hhead
  · rw [List.getLast?_concat]
    rfl
  · exact pairsOK_append_one hpairs hlb (hlbe ▸ hle)

/-- Loop invariant of the export loop, structural part: running `prev`
tracks the previous boundary, `total` the partial bucket-count sum, and the
accumulated data has counts summing to `total`, starts at `Min`, keeps its
last `End` at the last appended boundary (or `Max` for the overflow bucket),
and is pairwise ordered (`End ≤` next `Start`). -/
theorem exportFold_invariant (h : Histogram) (hd : 0 < h.Divider) :
    ∀ k, k ≤ numBuckets →
      (exportFold h k).prev = histogramBucketValues.getD (min (k - 1) 55) 0 ∧
      (exportFold h k).total = sumTo h.Hdata k ∧
      (((exportFold h k).data = [] ∧ ∀ j, j < k → h.Hdata.getD j 0 = 0) ∨
        (∃ jl, jl < k ∧ h.Hdata.getD jl 0 ≠ 0 ∧
          (exportFold h k).data ≠ [] ∧
          ((exportFold h k).data.map Bucket.Count).sum = (exportFold h k).total ∧
          (exportFold h k).data.head?.map Bucket.Start = some h.counter.Min ∧
          ((exportFold h k).data.getLast?).map Bucket.End =
            some (if jl < numValues
              then h.Divider * ((histogramBucketValues.getD jl 0 : ℤ) : ℚ) + h.Offset
              else h.counter.Max) ∧
          PairsOK (exportFold h k).data)) := by
  intro k
  induction k with
  | zero =>
      intro _
      exact ⟨rfl, rfl, Or.inl ⟨rfl, fun j hj => by omega⟩⟩
  | succ m ihm =>
      intro hm1
      obtain ⟨hprev, htotal, hdata⟩ := ihm (by omega)
      have hnb : numBuckets = 57 := rfl
      have hnv : numValues = 56 := rfl
      have hm56 : m ≤ 56 := by omega
      rw [exportFold_succ]
      unfold exportStep
      dsimp only
      by_cases hc : h.Hdata.getD m 0 = 0
      · rw [if_pos hc]
        dsimp only
        refine ⟨?_, by rw [sumTo_succ, hc, htotal]; ring, ?_⟩
        · by_cases hlt : m < numValues
          · rw [if_pos hlt]
            congr 1
            omega
          · rw [if_neg hlt, hprev]
            congr 1
            omega
        · rcases hdata with ⟨hemp, hall⟩ | ⟨jl, hjl⟩
          · refine Or.inl ⟨hemp, fun j hj => ?_⟩
            rcases Nat.lt_or_ge j m with hjm | hjm
            · exact hall j hjm
            · have hjem : j = m := by omega
              subst hjem
              exact hc
          · exact Or.inr ⟨jl, by omega, hjl.2.1, hjl.2.2.1, hjl.2.2.2.1,
              hjl.2.2.2.2.1, hjl.2.2.2.2.2.1, hjl.2.2.2.2.2.2⟩
      · rw [if_neg hc]
        by_cases hk : m < numValues
        · rw [if_pos hk]
          dsimp only
          have hm55 : m ≤ 55 := by omega
          refine ⟨by congr 1; omega, by rw [sumTo_succ, htotal], ?_⟩
          rcases hdata with ⟨hemp, hall⟩ |
            ⟨jl, hjl1, hjl2, hne, hsum, hhead, hlast, hpairs⟩
          · -- first bucket: data was empty, Start is Min
            rw [hemp, if_pos rfl]
            have hst0 : (exportFold h m).total = 0 := by
              rw [htotal]
              exact sumTo_zero_of_all_zero _ _ hall
            refine Or.inr ⟨m, by omega, hc, by simp, ?_, by simp, ?_, ?_⟩
            · rw [hst0]
              simp
            · rw [if_pos hk]
              simp
            · simpa using pairsOK_singleton _
          · -- later bucket: Start is the previous boundary
            rw [if_neg hne]
            have hjl55 : jl ≤ 55 := by omega
            have hjlv : jl < numValues := by omega
            rw [if_pos hjlv] at hlast
            have harg : h.Divider * ((histogramBucketValues.getD jl 0 : ℤ) : ℚ) + h.Offset ≤
                h.Divider * (((exportFold h m).prev : ℤ) : ℚ) + h.Offset := by
              rw [hprev]
              have hmono : histogramBucketValues.getD jl 0 ≤
                  histogramBucketValues.getD (min (m - 1) 55) 0 :=
                hbv_getD_mono_le (by omega) (by omega)
              have hcast : ((histogramBucketValues.getD jl 0 : ℤ) : ℚ) ≤
                  ((histogramBucketValues.getD (min (m - 1) 55) 0 : ℤ) : ℚ) := by
                exact_mod_cast hmono
              nlinarith
            refine Or.inr ⟨m, by omega, hc, ?_, ?_, ?_, ?_, ?_⟩
            · exact (data_append_inv hne hsum hhead hlast hpairs harg).1
            · exact (data_append_inv hne hsum hhead hlast hpairs harg).2.1
            · exact (data_append_inv hne hsum hhead hlast hpairs harg).2.2.1
            · rw [if_pos hk]
              exact (data_append_inv hne hsum hhead hlast hpairs harg).2.2.2.1
            · exact (data_append_inv hne hsum hhead hlast hpairs harg).2.2.2.2
        · -- overflow bucket m = 56
          rw [if_neg hk]
          dsimp only
          have hm : m = 56 := by omega
          refine ⟨by rw [hprev]; congr 1; omega, by rw [sumTo_succ, htotal], ?_⟩
          rcases hdata with ⟨hemp, hall⟩ |
            ⟨jl, hjl1, hjl2, hne, hsum, hhead, hlast, hpairs⟩
          · rw [hemp, if_pos rfl]
            have hst0 : (exportFold h m).total = 0 := by
              rw [htotal]
              exact sumTo_zero_of_all_zero _ _ hall
            refine Or.inr ⟨m, by omega, hc, by simp, ?_, by simp, ?_, ?_⟩
            · rw [hst0]
              simp
            · rw [if_neg (by omega : ¬ m < numValues)]
              simp
            · simpa using pairsOK_singleton _
          · rw [if_neg hne]
            have hjl55 : jl ≤ 55 := by omega
            have hjlv : jl < numValues := by omega
            rw [if_pos hjlv] at hlast
            have harg : h.Divider * ((histogramBucketValues.getD jl 0 : ℤ) : ℚ) + h.Offset ≤
                h.Divider * (((exportFold h m).prev : ℤ) : ℚ) + h.Offset := by
              rw [hprev]
              have hmono : histogramBucketValues.getD jl 0 ≤
                  histogramBucketValues.getD (min (m - 1) 55) 0 :=
                hbv_getD_mono_le (by omega) (by omega)
              have hcast : ((histogramBucketValues.getD jl 0 : ℤ) : ℚ) ≤
                  ((histogramBucketValues.getD (min (m - 1) 55) 0 : ℤ) : ℚ) := by
                exact_mod_cast hmono
              nlinarith
            refine Or.inr ⟨m, by omega, hc, ?_, ?_, ?_, ?_, ?_⟩
            · exact (data_append_inv hne hsum hhead hlast hpairs harg).1
            · exact (data_append_inv hne hsum hhead hlast hpairs harg).2.1
            · exact (data_append_inv hne hsum hhead hlast hpairs harg).2.2.1
            · rw [if_neg (by omega : ¬ m < numValues)]
              exact (data_append_inv hne hsum hhead hlast hpairs harg).2.2.2.1
            · exact (data_append_inv hne hsum hhead hlast hpairs harg).2.2.2.2

theorem setLastEnd_map_count (M : ℚ) : ∀ data : List Bucket,
    (setLastEnd M data).map Bucket.Count = data.map Bucket.Count := by
  intro data
  induction data with
  | nil => rfl
  | cons b rest ih =>
      cases rest with
      | nil => rfl
      | cons b' rest' =>
          rw [setLastEnd, List.map_cons, List.map_cons, ih]

theorem setLastEnd_head_start (M : ℚ) : ∀ data : List Bucket,
    (setLastEnd M data).head?.map Bucket.Start = data.head?.map Bucket.Start := by
  intro data
  cases data with
  | nil => rfl
  | cons b rest =>
      cases rest with
      | nil => rfl
      | cons b' rest' => rfl

theorem setLastEnd_length (M : ℚ) : ∀ data : List Bucket,
    (setLastEnd M data).length = data.length := by
  intro data
  induction data with
  | nil => rfl
  | cons b rest ih =>
      cases rest with
      | nil => rfl
      | cons b' rest' =>
          rw [setLastEnd, List.length_cons, List.length_cons, ih]

theorem setLastEnd_getLast (M : ℚ) : ∀ data : List Bucket, data ≠ [] →
    (setLastEnd M data).getLast?.map Bucket.End = some M := by
  intro data
  induction data with
  | nil => intro hcon; exact absurd rfl hcon
  | cons b rest ih =>
      intro _
      cases rest with
      | nil => rfl
      | cons b' rest' =>
          rw [setLastEnd]
          have hne : setLastEnd M (b' :: rest') ≠ [] := by
            intro hcon
            have := setLastEnd_length M (b' :: rest')
            rw [hcon] at this
            simp at this
          obtain ⟨x, xs, hxs⟩ := List.exists_cons_of_ne_nil hne
          rw [hxs, List.getLast?_cons_cons, ← hxs]
          exact ih (by simp)

theorem setLastEnd_getD_lt (M : ℚ) : ∀ (data : List Bucket) (i : ℕ),
    i + 1 < data.length →
    (setLastEnd M data).getD i default = data.getD i default := by
  intro data
  induction data with
  | nil => intro i hi; simp at hi
  | cons b rest ih =>
      intro i hi
      cases rest with
      | nil => simp at hi
      | cons b' rest' =>
          rw [setLastEnd]
          cases i with
          | zero => rfl
          | succ i' =>
              rw [List.getD_cons_succ, List.getD_cons_succ]
              exact ih i' (by simpa using hi)

theorem setLastEnd_getD_start (M : ℚ) : ∀ (data : List Bucket) (i : ℕ),
    ((setLastEnd M data).getD i default).Start = (data.getD i default).Start := by
  intro data
  induction data with
  | nil => intro i; rfl
  | cons b rest ih =>
      intro i
      cases rest with
      | nil =>
          cases i with
          | zero => rfl
          | succ i' => rfl
      | cons b' rest' =>
          rw [setLastEnd]
          cases i with
          | zero => rfl
          | succ i' =>
              rw [List.getD_cons_succ, List.getD_cons_succ]
              exact ih i'

theorem setLastEnd_pairsOK (M : ℚ) {data : List Bucket} (h : PairsOK data) :
    PairsOK (setLastEnd M data) := by
  intro i hi
  rw [setLastEnd_length] at hi
  rw [setLastEnd_getD_lt M data i hi, setLastEnd_getD_start]
  exact h i hi

theorem sumTo_ext (hdata : List ℤ) (a : ℕ) : ∀ b, a ≤ b →
    (∀ j, a ≤ j → j < b → hdata.getD j 0 = 0) → sumTo hdata b = sumTo hdata a := by
  intro b hab
  induction b, hab using Nat.le_induction with
  | base => intro _; rfl
  | succ n hn ih =>
      intro hz
      rw [sumTo_succ, hz n (by omega) (by omega),
        ih (fun j hj1 hj2 => hz j hj1 (by omega))]
      ring

/-- Overall structure of the exported data of any reachable histogram with
positive divider and at least one sample: counts sum to the total count, the
first interval starts at the observed minimum, the last ends at the observed
maximum, and consecutive intervals never overlap leftwards. -/
theorem export_structure {o d : ℚ} {P : ℚ → Prop} {h : Histogram}
    (inv : HistInv o d P h) (hd : 0 < d) (hcount : 0 < h.counter.Count) :
    h.Export.Data ≠ [] ∧
    (h.Export.Data.map Bucket.Count).sum = h.Export.Count ∧
    h.Export.Data.head?.map Bucket.Start = some h.Export.Min ∧
    h.Export.Data.getLast?.map Bucket.End = some h.Export.Max ∧
    PairsOK h.Export.Data := by
  have hd' : 0 < h.Divider := by rw [inv.divider_eq]; exact hd
  -- some bucket is positive
  have hex : ∃ i, i < numBuckets ∧ 0 < h.Hdata.getD i 0 := by
    by_contra hcon
    push_neg at hcon
    have hzero : ∀ j, j < numBuckets → h.Hdata.getD j 0 = 0 := by
      intro j hj
      have h1 := hcon j hj
      have h2 := inv.nonneg j
      omega
    have : h.Hdata.sum = 0 := by
      rw [← sumTo_full, inv.len]
      exact sumTo_zero_of_all_zero _ _ hzero
    rw [inv.sum_eq] at this
    omega
  obtain ⟨i, hi, hipos⟩ := hex
  obtain ⟨lastIdx, hfind⟩ := findLastIdx_isSome hi hipos
  obtain ⟨hlt, hpos, hmax⟩ := findLastIdx_spec hfind
  have hdataeq := export_eq_fold h hfind
  obtain ⟨hprev, htotal, hdata⟩ := exportFold_invariant h hd' (lastIdx + 1) (by omega)
  rcases hdata with ⟨_, hall⟩ | ⟨jl, hjl1, hjl2, hne, hsum, hhead, hlast, hpairs⟩
  · exact absurd (hall lastIdx (by omega)) (by omega)
  · have hne' : setLastEnd h.counter.Max (exportFold h (lastIdx + 1)).data ≠ [] := by
      intro hcon
      have := setLastEnd_length h.counter.Max (exportFold h (lastIdx + 1)).data
      rw [hcon] at this
      exact hne (List.length_eq_zero.mp this.symm)
    refine ⟨by rw [hdataeq]; exact hne', ?_, ?_, ?_, ?_⟩
    · rw [hdataeq]
      show ((setLastEnd h.counter.Max (exportFold h (lastIdx + 1)).data).map
        Bucket.Count).sum = h.counter.Count
      rw [setLastEnd_map_count, hsum, htotal]
      have hstep : sumTo h.Hdata numBuckets = sumTo h.Hdata (lastIdx + 1) := by
        apply sumTo_ext _ _ _ (by omega)
        intro j hj1 hj2
        have h1 := hmax j (by omega) hj2
        have h2 := inv.nonneg j
        omega
      rw [← hstep, ← inv.len, sumTo_full, inv.sum_eq]
    · rw [hdataeq]
      show (setLastEnd h.counter.Max (exportFold h (lastIdx + 1)).data).head?.map
        Bucket.Start = some h.counter.Min
      rw [setLastEnd_head_start]
      exact hhead
    · rw [hdataeq]
      exact setLastEnd_getLast _ _ hne
    · rw [hdataeq]
      exact setLastEnd_pairsOK _ hpairs

/-- C1 counterexample: recording 1 and 4 (offset 0, divider 1) leaves empty
buckets between the two non-empty ones; `Export` then produces
`Data = [[1,1], [3,4]]`, whose first `End` (1) differs from the second
`Start` (3), refuting `Data[i].End = Data[i+1].Start` across skipped empty
buckets (while `Count = 2 > 0` and the index 0 is before the last). -/
theorem export_adjacency_counterexample :
    ((buildHistogram 0 1 [(1, 1), (4, 1)]).map (fun h =>
      (h.Export.Count, h.Export.Data.length,
        (h.Export.Data.getD 0 default).End,
        (h.Export.Data.getD 1 default).Start))) = some (2, 2, 1, 3) ∧
    (1 : ℚ) ≠ 3 := by
  constructor
  · with_unfolding_all decide
  · norm_num

/-- C1 (amended): for every histogram reachable by records with positive
multiplicities, positive divider and `Count > 0`, the exported bucket counts
sum to the histogram's `Count`, `Data[0].Start` is the observed minimum and
`Data[last].End` the observed maximum; but adjacent intervals only satisfy
`Data[i].End ≤ Data[i+1].Start` — the two agree exactly when no empty
internal bucket was skipped between them, and skipped empty buckets leave a
gap (the next `Start` is the left boundary of its own bucket). -/
theorem export_structure_amended (o d : ℚ) (recs : List (ℚ × ℤ)) (h : Histogram)
    (hb : buildHistogram o d recs = some h) (hpos : ∀ r ∈ recs, 1 ≤ r.2)
    (hd : 0 < d) (hcount : 0 < h.counter.Count) :
    h.Export.Data ≠ [] ∧
    (h.Export.Data.map Bucket.Count).sum = h.Export.Count ∧
    h.Export.Data.head?.map Bucket.Start = some h.Export.Min ∧
    h.Export.Data.getLast?.map Bucket.End = some h.Export.Max ∧
    (∀ i, i + 1 < h.Export.Data.length →
      (h.Export.Data.getD i default).End ≤
        (h.Export.Data.getD (i + 1) default).Start) :=
  export_structure (buildHistogram_inv hb hpos) hd hcount

/-- The histogram used as the concrete instance for the export-structure
witness. -/
def c1WitnessHist : Histogram :=
  (buildHistogram 0 1 [(2, 1), (7, 2)]).getD ⟨Counter.empty, 0, 1, []⟩

/-- Witness for `export_structure_amended` at records `[(2,1), (7,2)]`. -/
theorem export_structure_amended_witness :
    buildHistogram 0 1 [(2, 1), (7, 2)] = some c1WitnessHist ∧
    (∀ r ∈ [((2 : ℚ), (1 : ℤ)), (7, 2)], 1 ≤ r.2) ∧ (0 : ℚ) < 1 ∧
    0 < c1WitnessHist.counter.Count ∧
    (c1WitnessHist.Export.Data.map Bucket.Count).sum = c1WitnessHist.Export.Count := by
  have hbuild : buildHistogram 0 1 [(2, 1), (7, 2)] = some c1WitnessHist := by
    with_unfolding_all decide
  have hcount : 0 < c1WitnessHist.counter.Count := by
    with_unfolding_all decide
  exact ⟨hbuild, by decide, by norm_num, hcount,
    (export_structure_amended 0 1 [(2, 1), (7, 2)] c1WitnessHist hbuild
      (by decide) (by norm_num) hcount).2.1⟩

/-! ## Bucket assignment (claim C2) -/

/-- C2 counterexample: with offset 0 and divider 1, the value `1 + 10⁻¹³`
scales to `s = 1 + 10⁻¹³`, and `record` puts it into bucket 1 — whose upper
boundary is 1, strictly below `s` — because the `delta < 1e-12` adjustment
rounds it down; the claim demands the smallest bucket with boundary `≥ s`
(bucket 2). -/
theorem record_epsilon_counterexample :
    bucketIdx 0 1 (1 + 1 / 10 ^ 13) = some 1 ∧
    ¬ ((1 + 1 / 10 ^ 13 : ℚ) ≤ ((histogramBucketValues.getD 1 0 : ℤ) : ℚ)) := by
  constructor
  · with_unfolding_all decide
  · have h1 : histogramBucketValues.getD 1 0 = 1 := by decide
    rw [h1]
    norm_num

/-- C2 (amended): with positive divider, a recorded value `v` updates exactly
the one bucket returned by the index computation, and that index is: 0 when
the scaled value `s = (v−o)/d` is `≤ 0` (hence always when `v < o`);
the overflow bucket when `s > 100000`; for `s ∈ (0, 100000]` with fractional
part 0 or at least `1e-12`, the smallest bucket whose boundary is `≥ s`
(boundary-exact values fall in that boundary's own bucket); for fractional
parts in `(0, 1e-12)` the value is bucketed as if it were exactly `⌊s⌋` when
`⌊s⌋ ≥ 1`, and the lookup panics when `s ∈ (0, 1e-12)`. -/
theorem record_bucket_assignment (o d v : ℚ) (hd : 0 < d) :
    (scaledOf o d v ≤ 0 → bucketIdx o d v = some 0) ∧
    (v < o → scaledOf o d v ≤ 0) ∧
    (100000 < scaledOf o d v → bucketIdx o d v = some (numBuckets - 1)) ∧
    (0 < scaledOf o d v → scaledOf o d v ≤ 100000 → epsSafe (scaledOf o d v) →
      bucketIdx o d v = some (smallestBoundaryGE (scaledOf o d v))) ∧
    (0 < scaledOf o d v → scaledOf o d v ≤ 100000 →
      (⌊scaledOf o d v⌋ : ℚ) < scaledOf o d v →
      scaledOf o d v - (⌊scaledOf o d v⌋ : ℚ) < recordEpsilon →
      1 ≤ ⌊scaledOf o d v⌋ →
      bucketIdx o d v = some (smallestBoundaryGE ((⌊scaledOf o d v⌋ : ℤ) : ℚ))) ∧
    (0 < scaledOf o d v → scaledOf o d v < recordEpsilon →
      bucketIdx o d v = none) ∧
    (∀ (h : Histogram) (n : ℤ) (b : ℕ), h.Offset = o → h.Divider = d →
      bucketIdx o d v = some b →
      h.record v n = some { h with Hdata := h.Hdata.set b (h.Hdata.getD b 0 + n) }) := by
  refine ⟨bucketIdx_low o d v, ?_, bucketIdx_high o d v, bucketIdx_safe o d v,
    bucketIdx_epsZone o d v, bucketIdx_panic o d v, ?_⟩
  · intro hvo
    unfold scaledOf
    apply div_nonpos_of_nonpos_of_nonneg <;> linarith
  · intro h n b ho hdi hb
    unfold Histogram.record
    rw [ho, hdi, hb]
    rfl

/-- Witness for `record_bucket_assignment` at `o = 0, d = 1, v = 13`:
`s = 13` is epsilon-safe and lands in bucket 13 (boundary 14), the smallest
boundary `≥ 13` being at index 13. -/
theorem record_bucket_assignment_witness :
    (0 : ℚ) < 1 ∧ 0 < scaledOf 0 1 13 ∧ scaledOf 0 1 13 ≤ 100000 ∧
    epsSafe (scaledOf 0 1 13) ∧
    bucketIdx 0 1 13 = some (smallestBoundaryGE (scaledOf 0 1 13)) := by
  refine ⟨by norm_num, ?_, ?_, ?_, ?_⟩
  · with_unfolding_all decide
  · with_unfolding_all decide
  · with_unfolding_all decide
  · exact (record_bucket_assignment 0 1 13 (by norm_num)).2.2.2.1
      (by with_unfolding_all decide) (by with_unfolding_all decide)
      (by with_unfolding_all decide)

/-! ## CalcPercentile against the specification formula (claim C3) -/

/-- The percentile rule exactly as the specification words it: `Max` for
`p ≥ 100`; `Min` for `p ≤ pp` where `pp = 100/Count`; otherwise find the
first bucket whose cumulative `Percent` is `≥ p` and interpolate
`Start + (p − prevPercent)/(Percent − prevPercent) × (End − Start)`, the
previous bucket's `Percent` standing in for `prevPercent` (initially `pp`).
Expressed by zipping each bucket with its predecessor's percent. -/
def calcPercentileFormula (e : HistogramData) (p : ℚ) : ℚ :=
  if 100 ≤ p then e.Max
  else
    let pp0 := 100 / (e.Count : ℚ)
    if p ≤ pp0 then e.Min
    else
      match ((pp0 :: e.Data.map Bucket.Percent).zip e.Data).find?
          (fun pr => decide (p ≤ pr.2.Percent)) with
      | some (prevP, b) =>
          b.Start + (p - prevP) / (b.Percent - prevP) * (b.End - b.Start)
      | none => e.Max

theorem calcLoop_eq_formula (maxv p : ℚ) : ∀ (data : List Bucket) (pp : ℚ),
    calcLoop maxv p data pp =
      (match ((pp :: data.map Bucket.Percent).zip data).find?
          (fun pr => decide (p ≤ pr.2.Percent)) with
       | some (prevP, b) =>
           b.Start + (p - prevP) / (b.Percent - prevP) * (b.End - b.Start)
       | none => maxv) := by
  intro data
  induction data with
  | nil => intro pp; rfl
  | cons b rest ih =>
      intro pp
      rw [calcLoop, List.map_cons, List.zip_cons_cons]
      by_cases hp : p ≤ b.Percent
      · rw [if_pos hp, List.find?_cons_of_pos _ (by simpa using hp)]
      · rw [if_neg hp, List.find?_cons_of_neg _ (by simpa using hp), ih b.Percent]

/-- For non-empty data the loop of `CalcPercentile` computes exactly the
specification's find-first-and-interpolate formula. -/
theorem calcPercentile_eq_formula (e : HistogramData) (hne : e.Data ≠ [])
    (p : ℚ) : e.CalcPercentile p = calcPercentileFormula e p := by
  unfold HistogramData.CalcPercentile calcPercentileFormula
  rw [if_neg hne]
  by_cases h1 : 100 ≤ p
  · rw [if_pos h1, if_pos h1]
  · rw [if_neg h1, if_neg h1]
    dsimp only
    by_cases h2 : p ≤ 100 / (e.Count : ℚ)
    · rw [if_pos h2, if_pos h2]
    · rw [if_neg h2, if_neg h2, calcLoop_eq_formula]

/-- C3: for every exported histogram with `Count > 0` (reachable build,
positive multiplicities, positive divider), `CalcPercentile` returns `Max`
for `p ≥ 100`, `Min` for `p ≤ 100/Count`, and otherwise the interpolation on
the first bucket whose cumulative percent reaches `p`, with the previous
percent seeded at `100/Count` — i.e. it agrees with `calcPercentileFormula`
everywhere. -/
theorem calcPercentile_spec (o d : ℚ) (recs : List (ℚ × ℤ)) (h : Histogram)
    (hb : buildHistogram o d recs = some h) (hpos : ∀ r ∈ recs, 1 ≤ r.2)
    (hd : 0 < d) (hcount : 0 < h.counter.Count) (p : ℚ) :
    h.Export.CalcPercentile p = calcPercentileFormula h.Export p :=
  calcPercentile_eq_formula _
    (export_structure (buildHistogram_inv hb hpos) hd hcount).1 p

/-- The histogram used as the concrete instance for the percentile witness. -/
def c3WitnessHist : Histogram :=
  (buildHistogram 0 1 [(3, 1), (9, 1)]).getD ⟨Counter.empty, 0, 1, []⟩

/-- Witness for `calcPercentile_spec`: records 3 and 9, percentile 75;
both the loop and the formula give `8 + 1/2 · (9 − 8) = 17/2`. -/
theorem calcPercentile_spec_witness :
    buildHistogram 0 1 [(3, 1), (9, 1)] = some c3WitnessHist ∧
    (∀ r ∈ [((3 : ℚ), (1 : ℤ)), (9, 1)], 1 ≤ r.2) ∧ (0 : ℚ) < 1 ∧
    0 < c3WitnessHist.counter.Count ∧
    c3WitnessHist.Export.CalcPercentile 75 =
      calcPercentileFormula c3WitnessHist.Export 75 ∧
    c3WitnessHist.Export.CalcPercentile 75 = 17 / 2 := by
  have hbuild : buildHistogram 0 1 [(3, 1), (9, 1)] = some c3WitnessHist := by
    with_unfolding_all decide
  have hcount : 0 < c3WitnessHist.counter.Count := by
    with_unfolding_all decide
  exact ⟨hbuild, by decide, by norm_num, hcount,
    calcPercentile_spec 0 1 [(3, 1), (9, 1)] c3WitnessHist hbuild (by decide)
      (by norm_num) hcount 75,
    by with_unfolding_all decide⟩

/-! ## Percentile monotonicity machinery (claim C4) -/

/-- A chain segment of buckets: cumulative percents ascend starting from
`pp`, each interval has `Start ≤ End` and starts no earlier than the running
lower value `x`; the final percent and end value are output. -/
def ChainSeg : ℚ → ℚ → List Bucket → ℚ → ℚ → Prop
  | pp, x, [], pp', x' => pp' = pp ∧ x' = x
  | pp, x, b :: rest, pp', x' =>
      pp ≤ b.Percent ∧ x ≤ b.Start ∧ b.Start ≤ b.End ∧
        ChainSeg b.Percent b.End rest pp' x'

/-- A chain of buckets whose interval values stay below `M`. -/
def ChainM (M : ℚ) : ℚ → ℚ → List Bucket → Prop
  | _, x, [] => x ≤ M
  | pp, x, b :: rest =>
      pp ≤ b.Percent ∧ x ≤ b.Start ∧ b.Start ≤ b.End ∧
        ChainM M b.Percent b.End rest

theorem chainSeg_append {b : Bucket} : ∀ (l : List Bucket) (pp x pp' x' : ℚ),
    ChainSeg pp x l pp' x' → pp' ≤ b.Percent → x' ≤ b.Start →
    b.Start ≤ b.End → ChainSeg pp x (l ++ [b]) b.Percent b.End := by
  intro l
  induction l with
  | nil =>
      intro pp x pp' x' hseg h1 h2 h3
      obtain ⟨hpp, hx⟩ := hseg
      exact ⟨by rw [← hpp]; exact h1, by rw [← hx]; exact h2, h3, rfl, rfl⟩
  | cons c rest ih =>
      intro pp x pp' x' hseg h1 h2 h3
      obtain ⟨hc1, hc2, hc3, hc4⟩ := hseg
      exact ⟨hc1, hc2, hc3, ih c.Percent c.End pp' x' hc4 h1 h2 h3⟩

theorem chainM_le (M : ℚ) : ∀ (l : List Bucket) (pp x : ℚ),
    ChainM M pp x l → x ≤ M := by
  intro l
  induction l with
  | nil => intro pp x hc; exact hc
  | cons b rest ih =>
      intro pp x hc
      obtain ⟨_, h2, h3, h4⟩ := hc
      exact le_trans h2 (le_trans h3 (ih b.Percent b.End h4))

/-- Replacing the last `End` by `M` turns a chain segment whose last `Start`
is below `M` into an `M`-bounded chain. -/
theorem chainSeg_setLastEnd (M : ℚ) : ∀ (l : List Bucket) (pp x pp' x' : ℚ),
    ChainSeg pp x l pp' x' →
    ((l.getLast?.map Bucket.Start).getD x ≤ M) →
    ChainM M pp x (setLastEnd M l) := by
  intro l
  induction l with
  | nil =>
      intro pp x pp' x' _ hle
      simpa using hle
  | cons b rest ih =>
      intro pp x pp' x' hseg hle
      obtain ⟨h1, h2, h3, h4⟩ := hseg
      cases rest with
      | nil =>
          refine ⟨h1, h2, ?_, le_refl M⟩
          simpa using hle
      | cons b' rest' =>
          rw [setLastEnd]
          refine ⟨h1, h2, h3, ?_⟩
          cases hlb : (b' :: rest').getLast? with
          | none =>
              exact absurd (List.getLast?_eq_none_iff.mp hlb) (by simp)
          | some lb =>
              apply ih b.Percent b.End pp' x' h4
              rw [List.getLast?_cons_cons, hlb] at hle
              rw [hlb]
              simpa using hle

/-- The interpolation loop stays within `[x, M]` along a chain. -/
theorem chainM_calcLoop_bounds (M p : ℚ) : ∀ (l : List Bucket) (pp x : ℚ),
    ChainM M pp x l → pp < p →
    x ≤ calcLoop M p l pp ∧ calcLoop M p l pp ≤ M := by
  intro l
  induction l with
  | nil =>
      intro pp x hc hp
      exact ⟨hc, le_refl M⟩
  | cons b rest ih =>
      intro pp x hc hp
      obtain ⟨h1, h2, h3, h4⟩ := hc
      rw [calcLoop]
      by_cases hple : p ≤ b.Percent
      · rw [if_pos hple]
        have hden : 0 < b.Percent - pp := by linarith
        have hr0 : 0 ≤ (p - pp) / (b.Percent - pp) :=
          div_nonneg (by linarith) (by linarith)
        have hr1 : (p - pp) / (b.Percent - pp) ≤ 1 := by
          rw [div_le_one hden]
          linarith
        have hlow : b.Start ≤ b.Start + (p - pp) / (b.Percent - pp) * (b.End - b.Start) := by
          nlinarith
        have hhigh : b.Start + (p - pp) / (b.Percent - pp) * (b.End - b.Start) ≤ b.End := by
          nlinarith
        have hEM : b.End ≤ M := chainM_le M rest b.Percent b.End h4
        exact ⟨le_trans h2 hlow, le_trans hhigh hEM⟩
      · rw [if_neg hple]
        have := ih b.Percent b.End h4 (by linarith [lt_of_not_le hple])
        exact ⟨le_trans h2 (le_trans h3 this.1), this.2⟩

/-- The interpolation loop is monotone in the requested percentile along a
chain. -/
theorem chainM_calcLoop_mono (M : ℚ) {p1 p2 : ℚ} (hp12 : p1 ≤ p2) :
    ∀ (l : List Bucket) (pp x : ℚ), ChainM M pp x l → pp < p1 →
    calcLoop M p1 l pp ≤ calcLoop M p2 l pp := by
  intro l
  induction l with
  | nil => intro pp x _ _; exact le_refl M
  | cons b rest ih =>
      intro pp x hc hp1
      obtain ⟨h1, h2, h3, h4⟩ := hc
      rw [calcLoop, calcLoop]
      by_cases hb2 : p2 ≤ b.Percent
      · have hb1 : p1 ≤ b.Percent := le_trans hp12 hb2
        rw [if_pos hb1, if_pos hb2]
        have hden : 0 < b.Percent - pp := by linarith
        have hratio : (p1 - pp) / (b.Percent - pp) ≤ (p2 - pp) / (b.Percent - pp) :=
          (div_le_div_right hden).mpr (by linarith)
        have hmul := mul_le_mul_of_nonneg_right hratio
          (by linarith : (0 : ℚ) ≤ b.End - b.Start)
        linarith
      · by_cases hb1 : p1 ≤ b.Percent
        · rw [if_pos hb1, if_neg hb2]
          have hden : 0 < b.Percent - pp := by linarith
          have hr1 : (p1 - pp) / (b.Percent - pp) ≤ 1 := by
            rw [div_le_one hden]
            linarith
          have hhigh : b.Start + (p1 - pp) / (b.Percent - pp) * (b.End - b.Start) ≤ b.End := by
            have hr0 : 0 ≤ (p1 - pp) / (b.Percent - pp) :=
              div_nonneg (by linarith) (by linarith)
            nlinarith
          have hlow := (chainM_calcLoop_bounds M p2 rest b.Percent b.End h4
            (lt_of_not_le hb2)).1
          exact le_trans hhigh hlow
        · rw [if_neg hb1, if_neg hb2]
          exact ih b.Percent b.End h4 (lt_of_not_le hb1)

/-- Monotonicity of `CalcPercentile` on any data forming an `M`-bounded
chain seeded at `100/Count`. -/
theorem calcPercentile_mono_of_chain {e : HistogramData} (hne : e.Data ≠ [])
    (hchain : ChainM e.Max (100 / (e.Count : ℚ)) e.Min e.Data)
    {p1 p2 : ℚ} (h12 : p1 ≤ p2) :
    e.CalcPercentile p1 ≤ e.CalcPercentile p2 := by
  have hminmax : e.Min ≤ e.Max := chainM_le _ _ _ _ hchain
  unfold HistogramData.CalcPercentile
  rw [if_neg hne, if_neg hne]
  dsimp only
  by_cases h2 : 100 ≤ p2
  · rw [if_pos h2]
    by_cases h1 : 100 ≤ p1
    · rw [if_pos h1]
    · rw [if_neg h1]
      by_cases h1p : p1 ≤ 100 / (e.Count : ℚ)
      · rw [if_pos h1p]
        exact hminmax
      · rw [if_neg h1p]
        exact (chainM_calcLoop_bounds _ _ _ _ _ hchain (lt_of_not_le h1p)).2
  · have h1 : ¬ 100 ≤ p1 := fun hcon => h2 (le_trans hcon h12)
    rw [if_neg h2, if_neg h1]
    by_cases h2p : p2 ≤ 100 / (e.Count : ℚ)
    · rw [if_pos h2p, if_pos (le_trans h12 h2p)]
    · rw [if_neg h2p]
      by_cases h1p : p1 ≤ 100 / (e.Count : ℚ)
      · rw [if_pos h1p]
        exact (chainM_calcLoop_bounds _ _ _ _ _ hchain (lt_of_not_le h2p)).1
      · rw [if_neg h1p]
        exact chainM_calcLoop_mono _ h12 _ _ _ hchain (lt_of_not_le h1p)

/-- Value bounds for a bucket assignment of an epsilon-safe scaled value. -/
theorem bucketIdx_content {o d v : ℚ} {b : ℕ} (hd : 0 < d)
    (hsafe : epsSafe (scaledOf o d v)) (hb : bucketIdx o d v = some b) :
    (b = 0 ∧ v ≤ o) ∨
    (1 ≤ b ∧ b ≤ 55 ∧
      o + d * ((histogramBucketValues.getD (b - 1) 0 : ℤ) : ℚ) < v ∧
      v ≤ o + d * ((histogramBucketValues.getD b 0 : ℤ) : ℚ)) ∨
    (b = 56 ∧ o + d * 100000 < v) := by
  have hveq : v = o + d * scaledOf o d v := by
    unfold scaledOf
    field_simp
  rcases le_or_lt (scaledOf o d v) 0 with hs0 | hs0
  · left
    have := bucketIdx_low o d v hs0
    rw [this] at hb
    refine ⟨by injection hb; omega, ?_⟩
    rw [hveq]
    nlinarith
  · rcases le_or_lt (scaledOf o d v) 100000 with hs1 | hs1
    · right; left
      have := bucketIdx_safe o d v hs0 hs1 hsafe
      rw [this] at hb
      have hbeq : smallestBoundaryGE (scaledOf o d v) = b := by
        injection hb with hb
      have hblt : smallestBoundaryGE (scaledOf o d v) < 56 :=
        smallestBoundaryGE_lt _ hs1
      have hprop := smallestBoundaryGE_prop _ hs1
      have hge1 : 1 ≤ smallestBoundaryGE (scaledOf o d v) := by
        by_contra hcon
        have hz : smallestBoundaryGE (scaledOf o d v) = 0 := by omega
        rw [hz] at hprop
        rw [hbv_getD_zero] at hprop
        simp at hprop
        linarith
      have hmin := smallestBoundaryGE_min (scaledOf o d v)
        (show smallestBoundaryGE (scaledOf o d v) - 1 <
          smallestBoundaryGE (scaledOf o d v) by omega)
      rw [hbeq] at hblt hprop hge1 hmin
      refine ⟨hge1, by omega, ?_, ?_⟩
      · rw [hveq]
        nlinarith
      · rw [hveq]
        nlinarith
    · right; right
      have := bucketIdx_high o d v hs1
      rw [this] at hb
      refine ⟨?_, ?_⟩
      · injection hb with hb
        rw [← hb]
        rfl
      · rw [hveq]
        nlinarith

/-- Loop invariant of the export loop, chain part: for reachable histograms
with positive divider, epsilon-safe records and at least one sample, the
accumulated data forms a chain segment from `(100/Count, Min)` to the
running percent and the last appended boundary, and the last interval's
`Start` stays below the observed maximum. -/
theorem sumTo_nonneg (hdata : List ℤ) (hnn : ∀ i, 0 ≤ hdata.getD i 0) :
    ∀ k, 0 ≤ sumTo hdata k := by
  intro k
  induction k with
  | zero => exact le_refl 0
  | succ m ihm =>
      rw [sumTo_succ]
      have := hnn m
      omega

theorem exportFold_chain {o d : ℚ} {P : ℚ → Prop} (h : Histogram)
    (inv : HistInv o d P h) (hd : 0 < d)
    (hsafe : ∀ v, P v → epsSafe (scaledOf o d v))
    (hcount : 0 < h.counter.Count) :
    ∀ k, k ≤ numBuckets →
      ((exportFold h k).data = [] ∧ ∀ j, j < k → h.Hdata.getD j 0 = 0) ∨
      (∃ jl, jl < k ∧ h.Hdata.getD jl 0 ≠ 0 ∧
        ChainSeg (100 / (h.counter.Count : ℚ)) h.counter.Min
          (exportFold h k).data
          (100 * ((exportFold h k).total : ℚ) / (h.counter.Count : ℚ))
          (if jl < numValues
            then h.Divider * ((histogramBucketValues.getD jl 0 : ℤ) : ℚ) + h.Offset
            else h.counter.Max) ∧
        ((exportFold h k).data.getLast?.map Bucket.Start).getD h.counter.Min
          ≤ h.counter.Max) := by
  have hd' : 0 < h.Divider := by rw [inv.divider_eq]; exact hd
  have hCQ : (0 : ℚ) < (h.counter.Count : ℚ) := by exact_mod_cast hcount
  have hnb : numBuckets = 57 := rfl
  have hnv : numValues = 56 := rfl
  have hmm : h.counter.Min ≤ h.counter.Max := inv.min_le_max (by omega)
  have hperc : ∀ t c : ℤ, 0 ≤ t → 1 ≤ c →
      100 * (t : ℚ) / (h.counter.Count : ℚ) ≤
      100 * ((t + c : ℤ) : ℚ) / (h.counter.Count : ℚ) := by
    intro t c ht hcc
    apply (div_le_div_right hCQ).mpr
    push_cast
    have : (0 : ℚ) ≤ (c : ℚ) := by exact_mod_cast le_trans (by omega : (0:ℤ) ≤ 1) hcc
    linarith
  have hseed : ∀ c : ℤ, 1 ≤ c →
      100 / (h.counter.Count : ℚ) ≤
      100 * ((0 + c : ℤ) : ℚ) / (h.counter.Count : ℚ) := by
    intro c hcc
    apply (div_le_div_right hCQ).mpr
    have : (1 : ℚ) ≤ (c : ℚ) := by exact_mod_cast hcc
    push_cast
    linarith
  intro k
  induction k with
  | zero =>
      intro _
      exact Or.inl ⟨rfl, fun j hj => by omega⟩
  | succ m ihm =>
      intro hm1
      have hm56 : m ≤ 56 := by omega
      obtain ⟨hprev, htotal, _⟩ := exportFold_invariant h hd' m (by omega)
      have htot0 : 0 ≤ (exportFold h m).total := by
        rw [htotal]
        exact sumTo_nonneg _ inv.nonneg m
      have hstep := ihm (by omega)
      rw [exportFold_succ]
      unfold exportStep
      dsimp only
      by_cases hc : h.Hdata.getD m 0 = 0
      · rw [if_pos hc]
        rcases hstep with ⟨hemp, hall⟩ | ⟨jl, hjl1, hjl2, hchain, hlastS⟩
        · refine Or.inl ⟨hemp, fun j hj => ?_⟩
          rcases Nat.lt_or_ge j m with hjm | hjm
          · exact hall j hjm
          · have hjem : j = m := by omega
            subst hjem
            exact hc
        · exact Or.inr ⟨jl, by omega, hjl2, hchain, hlastS⟩
      · rw [if_neg hc]
        obtain ⟨w, hPw, hbw, hwmin, hwmax⟩ := inv.witness m hc
        have hwsafe := hsafe w hPw
        have hcontent := bucketIdx_content hd hwsafe hbw
        have hcge : 1 ≤ h.Hdata.getD m 0 := by
          have := inv.nonneg m
          omega
        rw [← inv.offset_eq, ← inv.divider_eq] at hcontent
        by_cases hk : m < numValues
        · rw [if_pos hk]
          dsimp only
          have hm55 : m ≤ 55 := by omega
          rcases hstep with ⟨hemp, hall⟩ | ⟨jl, hjl1, hjl2, hchain, hlastS⟩
          · -- first bucket
            rw [hemp, if_pos rfl]
            have hst0 : (exportFold h m).total = 0 := by
              rw [htotal]
              exact sumTo_zero_of_all_zero _ _ hall
            have hstart_end : h.counter.Min ≤
                h.Divider * ((histogramBucketValues.getD m 0 : ℤ) : ℚ) + h.Offset := by
              rcases hcontent with ⟨hb0, hwo⟩ | ⟨hge1, _, _, hup⟩ | ⟨hb56, _⟩
              · subst hb0
                rw [hbv_getD_zero]
                push_cast
                linarith
              · linarith
              · omega
            refine Or.inr ⟨m, by omega, hc, ?_, ?_⟩
            · rw [hst0, if_pos hk]
              exact ⟨hseed _ hcge, le_refl _, hstart_end, rfl, rfl⟩
            · simp only [List.nil_append, List.getLast?_singleton,
                Option.map_some', Option.getD_some]
              exact hmm
          · -- later bucket
            have hne : (exportFold h m).data ≠ [] := by
              obtain ⟨_, _, hdataInv⟩ := exportFold_invariant h hd' m (by omega)
              rcases hdataInv with ⟨_, hall⟩ | ⟨_, _, _, hne2, _⟩
              · exact absurd (hall jl hjl1) hjl2
              · exact hne2
            rw [if_neg hne]
            have hjlv : jl < numValues := by omega
            rw [if_pos hjlv] at hchain
            have hm1le : m ≥ 1 := by omega
            have hmono1 : h.Divider * ((histogramBucketValues.getD jl 0 : ℤ) : ℚ) + h.Offset ≤
                h.Divider * (((exportFold h m).prev : ℤ) : ℚ) + h.Offset := by
              rw [hprev]
              have hmono := hbv_getD_mono_le (show jl ≤ min (m - 1) 55 by omega)
                (by omega)
              have hcast : ((histogramBucketValues.getD jl 0 : ℤ) : ℚ) ≤
                  ((histogramBucketValues.getD (min (m - 1) 55) 0 : ℤ) : ℚ) := by
                exact_mod_cast hmono
              nlinarith
            have hSE : h.Divider * (((exportFold h m).prev : ℤ) : ℚ) + h.Offset ≤
                h.Divider * ((histogramBucketValues.getD m 0 : ℤ) : ℚ) + h.Offset := by
              rw [hprev]
              have hmono := hbv_getD_mono_le (show min (m - 1) 55 ≤ m by omega)
                (by omega)
              have hcast : ((histogramBucketValues.getD (min (m - 1) 55) 0 : ℤ) : ℚ) ≤
                  ((histogramBucketValues.getD m 0 : ℤ) : ℚ) := by
                exact_mod_cast hmono
              nlinarith
            have hstartMax :
                h.Divider * (((exportFold h m).prev : ℤ) : ℚ) + h.Offset ≤ h.counter.Max := by
              rcases hcontent with ⟨hb0, _⟩ | ⟨hge1, h55c, hlow, _⟩ | ⟨hb56, _⟩
              · omega
              · rw [hprev]
                have hminm : min (m - 1) 55 = m - 1 := by omega
                rw [hminm]
                linarith
              · omega
            refine Or.inr ⟨m, by omega, hc, ?_, ?_⟩
            · rw [if_pos hk]
              exact chainSeg_append _ _ _ _ _ hchain (hperc _ _ htot0 hcge)
                hmono1 hSE
            · simp only [List.getLast?_concat, Option.map_some', Option.getD_some]
              exact hstartMax
        · -- overflow bucket, m = 56
          rw [if_neg hk]
          dsimp only
          have hm : m = 56 := by omega
          rcases hstep with ⟨hemp, hall⟩ | ⟨jl, hjl1, hjl2, hchain, hlastS⟩
          · rw [hemp, if_pos rfl]
            have hst0 : (exportFold h m).total = 0 := by
              rw [htotal]
              exact sumTo_zero_of_all_zero _ _ hall
            refine Or.inr ⟨m, by omega, hc, ?_, ?_⟩
            · rw [hst0, if_neg (by omega : ¬ m < numValues)]
              exact ⟨hseed _ hcge, le_refl _, hmm, rfl, rfl⟩
            · simp only [List.nil_append, List.getLast?_singleton,
                Option.map_some', Option.getD_some]
              exact hmm
          · have hne : (exportFold h m).data ≠ [] := by
              obtain ⟨_, _, hdataInv⟩ := exportFold_invariant h hd' m (by omega)
              rcases hdataInv with ⟨_, hall⟩ | ⟨_, _, _, hne2, _⟩
              · exact absurd (hall jl hjl1) hjl2
              · exact hne2
            rw [if_neg hne]
            have hjlv : jl < numValues := by omega
            rw [if_pos hjlv] at hchain
            have h55 : histogramBucketValues.getD 55 0 = 100000 := by decide
            have hmono1 : h.Divider * ((histogramBucketValues.getD jl 0 : ℤ) : ℚ) + h.Offset ≤
                h.Divider * (((exportFold h m).prev : ℤ) : ℚ) + h.Offset := by
              rw [hprev]
              have hmono := hbv_getD_mono_le (show jl ≤ min (m - 1) 55 by omega)
                (by omega)
              have hcast : ((histogramBucketValues.getD jl 0 : ℤ) : ℚ) ≤
                  ((histogramBucketValues.getD (min (m - 1) 55) 0 : ℤ) : ℚ) := by
                exact_mod_cast hmono
              nlinarith
            have hstartMax :
                h.Divider * (((exportFold h m).prev : ℤ) : ℚ) + h.Offset ≤ h.counter.Max := by
              rcases hcontent with ⟨hb0, _⟩ | ⟨_, h55c, _, _⟩ | ⟨_, hlow⟩
              · omega
              · omega
              · rw [hprev]
                have hminm : min (m - 1) 55 = 55 := by omega
                rw [hminm, h55]
                push_cast
                linarith
            refine Or.inr ⟨m, by omega, hc, ?_, ?_⟩
            · rw [if_neg (by omega : ¬ m < numValues)]
              exact chainSeg_append _ _ _ _ _ hchain (hperc _ _ htot0 hcge)
                hmono1 hstartMax
            · simp only [List.getLast?_concat, Option.map_some', Option.getD_some]
              exact hstartMax

/-! ## Percentile monotonicity (claim C4) -/

set_option maxRecDepth 2000 in
/-- C4 counterexample: offset 0, divider 1, records `(1 + 10⁻¹³) × 2` and
`5 × 1` give `Count = 3 > 0`, yet for `p1 = 50 < p2 = 200/3` the percentiles
invert: `CalcPercentile (200/3) = 1` is strictly below
`CalcPercentile 50 = 1 + 10⁻¹³/2`, because the epsilon adjustment of
`record` puts `1 + 10⁻¹³` into the bucket `[min, 1]` whose `End` lies below
its `Start`, so the interpolation decreases on that bucket. -/
theorem calcPercentile_mono_counterexample :
    ((buildHistogram 0 1 [(1 + 1 / 10 ^ 13, 2), (5, 1)]).map (fun h =>
      (decide (0 < h.counter.Count),
        decide (h.Export.CalcPercentile (200 / 3) < h.Export.CalcPercentile 50))))
      = some (true, true) ∧
    (50 : ℚ) < 200 / 3 := by
  refine ⟨?_, by norm_num⟩
  with_unfolding_all decide

/-- C4 (amended): for every histogram reachable by records with positive
multiplicities and positive divider whose recorded values all scale to an
epsilon-safe value (fractional part zero or at least `1e-12`, so the
`delta < 1e-12` adjustment of `record` never fires), and with `Count > 0`,
`CalcPercentile` of the export is monotone: `p1 < p2` implies
`CalcPercentile p1 ≤ CalcPercentile p2`. -/
theorem calcPercentile_monotone_amended (o d : ℚ) (recs : List (ℚ × ℤ))
    (h : Histogram) (hb : buildHistogram o d recs = some h)
    (hpos : ∀ r ∈ recs, 1 ≤ r.2) (hd : 0 < d)
    (hsafe : ∀ r ∈ recs, epsSafe (scaledOf o d r.1))
    (hcount : 0 < h.counter.Count) {p1 p2 : ℚ} (h12 : p1 < p2) :
    h.Export.CalcPercentile p1 ≤ h.Export.CalcPercentile p2 := by
  have inv := buildHistogram_inv hb hpos
  have hd' : 0 < h.Divider := by rw [inv.divider_eq]; exact hd
  have hex : ∃ i, i < numBuckets ∧ 0 < h.Hdata.getD i 0 := by
    by_contra hcon
    push_neg at hcon
    have hzero : ∀ j, j < numBuckets → h.Hdata.getD j 0 = 0 := by
      intro j hj
      have h1 := hcon j hj
      have h2 := inv.nonneg j
      omega
    have : h.Hdata.sum = 0 := by
      rw [← sumTo_full, inv.len]
      exact sumTo_zero_of_all_zero _ _ hzero
    rw [inv.sum_eq] at this
    omega
  obtain ⟨i, hi, hipos⟩ := hex
  obtain ⟨lastIdx, hfind⟩ := findLastIdx_isSome hi hipos
  obtain ⟨hlt, hposL, _⟩ := findLastIdx_spec hfind
  have hdataeq := export_eq_fold h hfind
  have hchainAll := exportFold_chain h inv hd
    (fun v hv => by obtain ⟨n, hn⟩ := hv; exact hsafe (v, n) hn)
    hcount (lastIdx + 1) (by omega)
  rcases hchainAll with ⟨_, hall⟩ | ⟨jl, hjl1, hjl2, hchain, hlastS⟩
  · exact absurd (hall lastIdx (by omega)) (by omega)
  · obtain ⟨_, _, hdataInv⟩ := exportFold_invariant h hd' (lastIdx + 1) (by omega)
    rcases hdataInv with ⟨_, hall⟩ | ⟨_, _, _, hne, _⟩
    · exact absurd (hall jl hjl1) hjl2
    · have hchainM := chainSeg_setLastEnd h.counter.Max _ _ _ _ _ hchain hlastS
      have hne' : setLastEnd h.counter.Max (exportFold h (lastIdx + 1)).data ≠ [] := by
        intro hcon
        have := setLastEnd_length h.counter.Max (exportFold h (lastIdx + 1)).data
        rw [hcon] at this
        exact hne (List.length_eq_zero.mp this.symm)
      rw [hdataeq]
      exact calcPercentile_mono_of_chain hne' hchainM (le_of_lt h12)

/-- The histogram used as the concrete instance for the percentile
monotonicity witness. -/
def c4WitnessHist : Histogram :=
  (buildHistogram 0 1 [(1, 1), (6, 2)]).getD ⟨Counter.empty, 0, 1, []⟩

/-- Witness for `calcPercentile_monotone_amended` at records `[(1,1), (6,2)]`
and percentiles `50 < 90`. -/
theorem calcPercentile_monotone_amended_witness :
    buildHistogram 0 1 [(1, 1), (6, 2)] = some c4WitnessHist ∧
    (∀ r ∈ [((1 : ℚ), (1 : ℤ)), (6, 2)], 1 ≤ r.2) ∧ (0 : ℚ) < 1 ∧
    (∀ r ∈ [((1 : ℚ), (1 : ℤ)), (6, 2)], epsSafe (scaledOf 0 1 r.1)) ∧
    0 < c4WitnessHist.counter.Count ∧ (50 : ℚ) < 90 ∧
    c4WitnessHist.Export.CalcPercentile 50 ≤
      c4WitnessHist.Export.CalcPercentile 90 := by
  have hbuild : buildHistogram 0 1 [(1, 1), (6, 2)] = some c4WitnessHist := by
    with_unfolding_all decide
  have hsafe : ∀ r ∈ [((1 : ℚ), (1 : ℤ)), (6, 2)], epsSafe (scaledOf 0 1 r.1) := by
    with_unfolding_all decide
  have hcount : 0 < c4WitnessHist.counter.Count := by
    with_unfolding_all decide
  exact ⟨hbuild, by decide, by norm_num, hsafe, hcount, by norm_num,
    calcPercentile_monotone_amended 0 1 [(1, 1), (6, 2)] c4WitnessHist hbuild
      (by decide) (by norm_num) hsafe hcount (by norm_num)⟩

/-! ## Merge: characterization, associativity (C5) and destructiveness (C10) -/

theorem getD_range_map (f : ℕ → ℤ) {n i : ℕ} (h : i < n) :
    ((List.range n).map f).getD i 0 = f i := by
  have hlen : i < ((List.range n).map f).length := by
    rw [List.length_map, List.length_range]
    exact h
  rw [List.getD_eq_getElem _ _ hlen, List.getElem_map]
  congr 1
  exact List.getElem_range _ _

theorem getD_replicate_zero (n i : ℕ) :
    (List.replicate n (0 : ℤ)).getD i 0 = 0 := by
  rcases Nat.lt_or_ge i n with hi | hi
  · rw [List.getD_eq_getElem _ _ (by simpa using hi)]
    exact List.getElem_replicate _ _
  · rw [List.getD_eq_default]
    rw [List.length_replicate]
    exact hi

/-- The counter of the histogram `Merge` returns, as a function of the two
source counters: a zero-count source is skipped entirely (the fresh
histogram's empty counter, or the other source's counter, survives), and two
live counters combine by the `Counter.Transfer` arithmetic. -/
def mergedCounter (c1 c2 : Counter) : Counter :=
  if c1.Count = 0 then (if c2.Count = 0 then Counter.empty else c2)
  else if c2.Count = 0 then c1
  else
    { Count := c1.Count + c2.Count
      Min := if c2.Min < c1.Min then c2.Min else c1.Min
      Max := if c1.Max < c2.Max then c2.Max else c1.Max
      Sum := c1.Sum + c2.Sum
      sumOfSquares := c1.sumOfSquares + c2.sumOfSquares }

/-- The bucket array of the histogram `Merge` returns: pointwise sums over
the `numBuckets` buckets, a zero-count source contributing nothing. -/
def mergedHdata (h1 h2 : Histogram) : List ℤ :=
  (List.range numBuckets).map (fun i =>
    (if h1.counter.Count = 0 then 0 else h1.Hdata.getD i 0) +
    (if h2.counter.Count = 0 then 0 else h2.Hdata.getD i 0))

theorem mergedCounter_count (c1 c2 : Counter) :
    (mergedCounter c1 c2).Count = c1.Count + c2.Count := by
  unfold mergedCounter
  by_cases e1 : c1.Count = 0
  · rw [if_pos e1]
    by_cases e2 : c2.Count = 0
    · rw [if_pos e2, e1, e2]
      rfl
    · rw [if_neg e2, e1, zero_add]
  · rw [if_neg e1]
    by_cases e2 : c2.Count = 0
    · rw [if_pos e2, e2, add_zero]
    · rw [if_neg e2]

/-- `Merge` on histograms with the same scale: the merged histogram carries
`mergedCounter` and `mergedHdata`, and each source comes back reset exactly
when it had samples. -/
theorem merge_spec (h1 h2 : Histogram) (o d : ℚ) (hd : d ≠ 0)
    (h1o : h1.Offset = o) (h1d : h1.Divider = d)
    (h2o : h2.Offset = o) (h2d : h2.Divider = d) :
    Merge h1 h2 = some
      (⟨mergedCounter h1.counter h2.counter, o, d, mergedHdata h1 h2⟩,
        (if h1.counter.Count = 0 then h1 else h1.Reset),
        (if h2.counter.Count = 0 then h2 else h2.Reset)) := by
  have hnewH : NewHistogram o d =
      some ⟨Counter.empty, o, d, List.replicate numBuckets 0⟩ := by
    unfold NewHistogram
    rw [if_neg hd]
  unfold Merge
  rw [h1d, h2d, h1o, h2o, if_neg (lt_irrefl d), if_neg (lt_irrefl o)]
  dsimp only
  rw [hnewH]
  simp only [Option.bind_eq_bind, Option.some_bind]
  by_cases hc1 : h1.counter.Count = 0
  · have ht1 : Histogram.Transfer ⟨Counter.empty, o, d, List.replicate numBuckets 0⟩ h1
        = some (⟨Counter.empty, o, d, List.replicate numBuckets 0⟩, h1) := by
      unfold Histogram.Transfer
      rw [if_pos hc1]
    rw [ht1, Option.some_bind]
    by_cases hc2 : h2.counter.Count = 0
    · have ht2 : Histogram.Transfer ⟨Counter.empty, o, d, List.replicate numBuckets 0⟩ h2
          = some (⟨Counter.empty, o, d, List.replicate numBuckets 0⟩, h2) := by
        unfold Histogram.Transfer
        rw [if_pos hc2]
      rw [ht2, Option.map_some']
      have hcoun : mergedCounter h1.counter h2.counter = Counter.empty := by
        unfold mergedCounter
        rw [if_pos hc1, if_pos hc2]
      have hdat : mergedHdata h1 h2 = List.replicate numBuckets 0 := by
        have hfun : (fun i : ℕ =>
            (if h1.counter.Count = 0 then (0 : ℤ) else h1.Hdata.getD i 0) +
            (if h2.counter.Count = 0 then 0 else h2.Hdata.getD i 0)) =
            fun _ => 0 := by
          funext i
          rw [if_pos hc1, if_pos hc2, add_zero]
        unfold mergedHdata
        rw [hfun, List.map_const', List.length_range]
      rw [hcoun, hdat, if_pos hc1, if_pos hc2]
    · have ht2 : Histogram.Transfer ⟨Counter.empty, o, d, List.replicate numBuckets 0⟩ h2
          = some (⟨h2.counter, o, d,
              (List.range numBuckets).map (fun i => h2.Hdata.getD i 0)⟩, h2.Reset) := by
        unfold Histogram.Transfer
        have hz2 : ((⟨Counter.empty, o, d, List.replicate numBuckets 0⟩ :
            Histogram)).counter.Count = 0 := rfl
        rw [if_neg hc2, if_pos hz2]
        unfold Histogram.CopyFrom Histogram.copyHDataFrom
        rw [if_pos ⟨h2d.symm, h2o.symm⟩, Option.map_some']
        have hdd : (List.range (List.replicate numBuckets (0 : ℤ)).length).map
            (fun i => (List.replicate numBuckets (0 : ℤ)).getD i 0 + h2.Hdata.getD i 0)
            = (List.range numBuckets).map (fun i => h2.Hdata.getD i 0) := by
          rw [List.length_replicate]
          apply List.map_congr_left
          intro i _
          rw [getD_replicate_zero, zero_add]
        dsimp only
        rw [hdd]
      rw [ht2, Option.map_some']
      have hcoun : mergedCounter h1.counter h2.counter = h2.counter := by
        unfold mergedCounter
        rw [if_pos hc1, if_neg hc2]
      have hdat : mergedHdata h1 h2 =
          (List.range numBuckets).map (fun i => h2.Hdata.getD i 0) := by
        unfold mergedHdata
        apply List.map_congr_left
        intro i _
        rw [if_pos hc1, if_neg hc2, zero_add]
      rw [hcoun, hdat, if_pos hc1, if_neg hc2]
  · have ht1 : Histogram.Transfer ⟨Counter.empty, o, d, List.replicate numBuckets 0⟩ h1
        = some (⟨h1.counter, o, d,
            (List.range numBuckets).map (fun i => h1.Hdata.getD i 0)⟩, h1.Reset) := by
      unfold Histogram.Transfer
      have hz1 : ((⟨Counter.empty, o, d, List.replicate numBuckets 0⟩ :
          Histogram)).counter.Count = 0 := rfl
      rw [if_neg hc1, if_pos hz1]
      unfold Histogram.CopyFrom Histogram.copyHDataFrom
      rw [if_pos ⟨h1d.symm, h1o.symm⟩, Option.map_some']
      have hdd : (List.range (List.replicate numBuckets (0 : ℤ)).length).map
          (fun i => (List.replicate numBuckets (0 : ℤ)).getD i 0 + h1.Hdata.getD i 0)
          = (List.range numBuckets).map (fun i => h1.Hdata.getD i 0) := by
        rw [List.length_replicate]
        apply List.map_congr_left
        intro i _
        rw [getD_replicate_zero, zero_add]
      dsimp only
      rw [hdd]
    rw [ht1, Option.some_bind]
    by_cases hc2 : h2.counter.Count = 0
    · have ht2 : Histogram.Transfer ⟨h1.counter, o, d,
          (List.range numBuckets).map (fun i => h1.Hdata.getD i 0)⟩ h2
          = some (⟨h1.counter, o, d,
              (List.range numBuckets).map (fun i => h1.Hdata.getD i 0)⟩, h2) := by
        unfold Histogram.Transfer
        rw [if_pos hc2]
      rw [ht2, Option.map_some']
      have hcoun : mergedCounter h1.counter h2.counter = h1.counter := by
        unfold mergedCounter
        rw [if_neg hc1, if_pos hc2]
      have hdat : mergedHdata h1 h2 =
          (List.range numBuckets).map (fun i => h1.Hdata.getD i 0) := by
        unfold mergedHdata
        apply List.map_congr_left
        intro i _
        rw [if_neg hc1, if_pos hc2, add_zero]
      rw [hcoun, hdat, if_neg hc1, if_pos hc2]
    · have ht2 : Histogram.Transfer ⟨h1.counter, o, d,
          (List.range numBuckets).map (fun i => h1.Hdata.getD i 0)⟩ h2
          = some (⟨(Counter.Transfer h1.counter h2.counter).1, o, d,
              mergedHdata h1 h2⟩, h2.Reset) := by
        unfold Histogram.Transfer
        rw [if_neg hc2, if_neg hc1]
        unfold Histogram.copyHDataFrom
        rw [if_pos ⟨h2d.symm, h2o.symm⟩, Option.map_some']
        have hdd : (List.range
              ((List.range numBuckets).map (fun i => h1.Hdata.getD i 0)).length).map
            (fun i => ((List.range numBuckets).map
              (fun j => h1.Hdata.getD j 0)).getD i 0 + h2.Hdata.getD i 0)
            = mergedHdata h1 h2 := by
          rw [List.length_map, List.length_range]
          unfold mergedHdata
          apply List.map_congr_left
          intro i hi
          rw [List.mem_range] at hi
          rw [getD_range_map _ hi, if_neg hc1, if_neg hc2]
        dsimp only
        rw [hdd]
      rw [ht2, Option.map_some']
      have hcoun : mergedCounter h1.counter h2.counter =
          (Counter.Transfer h1.counter h2.counter).1 := by
        unfold mergedCounter Counter.Transfer
        rw [if_neg hc1, if_neg hc2, if_neg hc2, if_neg hc1]
      rw [hcoun, if_neg hc1, if_neg hc2]

theorem ifmin_assoc (a b c : ℚ) :
    (if c < (if b < a then b else a) then c else (if b < a then b else a)) =
      (if (if c < b then c else b) < a then (if c < b then c else b) else a) := by
  split_ifs <;> linarith

theorem ifmax_assoc (a b c : ℚ) :
    (if (if a < b then b else a) < c then c else (if a < b then b else a)) =
      (if a < (if b < c then c else b) then (if b < c then c else b) else a) := by
  split_ifs <;> linarith

theorem mergedCounter_assoc (c1 c2 c3 : Counter)
    (n1 : 0 ≤ c1.Count) (n2 : 0 ≤ c2.Count) (n3 : 0 ≤ c3.Count) :
    mergedCounter (mergedCounter c1 c2) c3 =
      mergedCounter c1 (mergedCounter c2 c3) := by
  have hz : Counter.empty.Count = 0 := rfl
  have hM00 : ∀ x y : Counter, x.Count = 0 → y.Count = 0 →
      mergedCounter x y = Counter.empty := by
    intro x y hx hy
    unfold mergedCounter
    rw [if_pos hx, if_pos hy]
  have hM0 : ∀ x y : Counter, x.Count = 0 → y.Count ≠ 0 →
      mergedCounter x y = y := by
    intro x y hx hy
    unfold mergedCounter
    rw [if_pos hx, if_neg hy]
  have hM0' : ∀ x y : Counter, x.Count ≠ 0 → y.Count = 0 →
      mergedCounter x y = x := by
    intro x y hx hy
    unfold mergedCounter
    rw [if_neg hx, if_pos hy]
  have hMc : ∀ x y : Counter, x.Count ≠ 0 → y.Count ≠ 0 →
      mergedCounter x y =
        { Count := x.Count + y.Count
          Min := if y.Min < x.Min then y.Min else x.Min
          Max := if x.Max < y.Max then y.Max else x.Max
          Sum := x.Sum + y.Sum
          sumOfSquares := x.sumOfSquares + y.sumOfSquares } := by
    intro x y hx hy
    unfold mergedCounter
    rw [if_neg hx, if_neg hy]
  by_cases e1 : c1.Count = 0 <;> by_cases e2 : c2.Count = 0 <;>
    by_cases e3 : c3.Count = 0
  · rw [hM00 _ _ e1 e2, hM00 _ _ hz e3, hM00 _ _ e2 e3, hM00 _ _ e1 hz]
  · rw [hM00 _ _ e1 e2, hM0 _ _ hz e3, hM0 _ _ e2 e3, hM0 _ _ e1 e3]
  · rw [hM0 _ _ e1 e2, hM0' _ _ e2 e3, hM0 _ _ e1 e2]
  · have hBC : (mergedCounter c2 c3).Count ≠ 0 := by
      rw [mergedCounter_count]
      omega
    rw [hM0 _ _ e1 e2, hM0 _ _ e1 hBC]
  · rw [hM0' _ _ e1 e2, hM0' _ _ e1 e3, hM00 _ _ e2 e3, hM0' _ _ e1 hz]
  · rw [hM0' _ _ e1 e2, hM0 _ _ e2 e3]
  · have hAB : (mergedCounter c1 c2).Count ≠ 0 := by
      rw [mergedCounter_count]
      omega
    rw [hM0' _ _ hAB e3, hM0' _ _ e2 e3]
  · have hAB : (mergedCounter c1 c2).Count ≠ 0 := by
      rw [mergedCounter_count]
      omega
    have hBC : (mergedCounter c2 c3).Count ≠ 0 := by
      rw [mergedCounter_count]
      omega
    rw [hMc _ _ hAB e3, hMc _ _ e1 hBC, hMc _ _ e1 e2, hMc _ _ e2 e3]
    simp only [Counter.mk.injEq]
    exact ⟨by ring, ifmin_assoc _ _ _, ifmax_assoc _ _ _, by ring, by ring⟩

theorem ite_zero_add_collapse (p q : Prop) [Decidable p] [Decidable q]
    (a b : ℤ) :
    (if p ∧ q then (0 : ℤ) else ((if p then 0 else a) + (if q then 0 else b)))
      = (if p then 0 else a) + (if q then 0 else b) := by
  by_cases hp : p <;> by_cases hq : q <;> simp [hp, hq]

theorem mergedHdata_assoc (A B C : Histogram) (o d : ℚ)
    (nA : 0 ≤ A.counter.Count) (nB : 0 ≤ B.counter.Count)
    (nC : 0 ≤ C.counter.Count) :
    mergedHdata ⟨mergedCounter A.counter B.counter, o, d, mergedHdata A B⟩ C =
      mergedHdata A ⟨mergedCounter B.counter C.counter, o, d, mergedHdata B C⟩ := by
  unfold mergedHdata
  apply List.map_congr_left
  intro i hi
  rw [List.mem_range] at hi
  dsimp only
  simp only [mergedCounter_count]
  rw [getD_range_map _ hi, getD_range_map _ hi]
  have hAB : (A.counter.Count + B.counter.Count = 0) ↔
      (A.counter.Count = 0 ∧ B.counter.Count = 0) := by omega
  have hBC : (B.counter.Count + C.counter.Count = 0) ↔
      (B.counter.Count = 0 ∧ C.counter.Count = 0) := by omega
  rw [if_congr hAB rfl rfl, if_congr hBC rfl rfl]
  rw [ite_zero_add_collapse, ite_zero_add_collapse]
  ring

/-- C5: for histograms `A`, `B`, `C` of the same nonzero scale and with
nonnegative counts, `Merge (Merge A B) C` and `Merge A (Merge B C)` both
succeed and produce merged histograms equal on every counter field and every
per-bucket count. -/
theorem merge_associative (A B C : Histogram) (o d : ℚ) (hd : d ≠ 0)
    (hAo : A.Offset = o) (hAd : A.Divider = d)
    (hBo : B.Offset = o) (hBd : B.Divider = d)
    (hCo : C.Offset = o) (hCd : C.Divider = d)
    (nA : 0 ≤ A.counter.Count) (nB : 0 ≤ B.counter.Count)
    (nC : 0 ≤ C.counter.Count) :
    ∃ L R : Histogram,
      ((Merge A B).bind fun t => mergeResult t.1 C) = some L ∧
      ((Merge B C).bind fun t => mergeResult A t.1) = some R ∧
      L.counter = R.counter ∧ L.Hdata = R.Hdata := by
  refine ⟨⟨mergedCounter (mergedCounter A.counter B.counter) C.counter, o, d,
      mergedHdata ⟨mergedCounter A.counter B.counter, o, d, mergedHdata A B⟩ C⟩,
    ⟨mergedCounter A.counter (mergedCounter B.counter C.counter), o, d,
      mergedHdata A ⟨mergedCounter B.counter C.counter, o, d, mergedHdata B C⟩⟩,
    ?_, ?_, ?_, ?_⟩
  · rw [merge_spec A B o d hd hAo hAd hBo hBd, Option.some_bind]
    unfold mergeResult
    rw [merge_spec _ C o d hd rfl rfl hCo hCd, Option.map_some']
  · rw [merge_spec B C o d hd hBo hBd hCo hCd, Option.some_bind]
    unfold mergeResult
    rw [merge_spec A _ o d hd hAo hAd rfl rfl, Option.map_some']
  · exact mergedCounter_assoc _ _ _ nA nB nC
  · exact mergedHdata_assoc A B C o d nA nB nC

def c5A : Histogram := ⟨⟨2, 1, 3, 4, 10⟩, 0, 1, [1, 1]⟩

def c5B : Histogram := ⟨⟨1, 5, 5, 5, 25⟩, 0, 1, [0, 0, 1]⟩

def c5C : Histogram := ⟨⟨0, 0, 0, 0, 0⟩, 0, 1, [7]⟩

/-- Witness for `merge_associative` at three small concrete histograms (one
of them empty). -/
theorem merge_associative_witness :
    (1 : ℚ) ≠ 0 ∧ c5A.Offset = 0 ∧ c5A.Divider = 1 ∧
    c5B.Offset = 0 ∧ c5B.Divider = 1 ∧ c5C.Offset = 0 ∧ c5C.Divider = 1 ∧
    0 ≤ c5A.counter.Count ∧ 0 ≤ c5B.counter.Count ∧ 0 ≤ c5C.counter.Count ∧
    (∃ L R : Histogram,
      ((Merge c5A c5B).bind fun t => mergeResult t.1 c5C) = some L ∧
      ((Merge c5B c5C).bind fun t => mergeResult c5A t.1) = some R ∧
      L.counter = R.counter ∧ L.Hdata = R.Hdata) :=
  ⟨by norm_num, rfl, rfl, rfl, rfl, rfl, rfl, by decide, by decide, by decide,
    merge_associative c5A c5B c5C 0 1 (by norm_num) rfl rfl rfl rfl rfl rfl
      (by decide) (by decide) (by decide)⟩

/-- After a successful `Transfer`, the source comes back `Reset` when it had
any samples. -/
theorem transfer_snd {h src : Histogram} {p : Histogram × Histogram}
    (ht : h.Transfer src = some p) (hc : src.counter.Count ≠ 0) :
    p.2 = src.Reset := by
  unfold Histogram.Transfer at ht
  rw [if_neg hc] at ht
  by_cases hz : h.counter.Count = 0
  · rw [if_pos hz] at ht
    cases hcp : h.CopyFrom src with
    | none => rw [hcp] at ht; simp at ht
    | some h' =>
        rw [hcp, Option.map_some'] at ht
        injection ht with ht
        rw [← ht]
  · rw [if_neg hz] at ht
    cases hcp : h.copyHDataFrom src with
    | none => rw [hcp] at ht; simp at ht
    | some h' =>
        rw [hcp, Option.map_some'] at ht
        injection ht with ht
        rw [← ht]

/-- C10: `Merge` is destructive on its arguments: whenever it succeeds, each
source histogram that had `Count > 0` comes back in the reset state — its
counter is the zero value (`Count = Min = Max = Sum = sumOfSquares = 0`) and
every bucket count is `0`; the merged data lives only in the first component
of the returned triple. -/
theorem merge_destructive (h1 h2 : Histogram)
    (r : Histogram × Histogram × Histogram) (hm : Merge h1 h2 = some r) :
    (0 < h1.counter.Count → r.2.1.counter = Counter.empty ∧
      ∀ i, r.2.1.Hdata.getD i 0 = 0) ∧
    (0 < h2.counter.Count → r.2.2.counter = Counter.empty ∧
      ∀ i, r.2.2.Hdata.getD i 0 = 0) := by
  unfold Merge at hm
  simp only [Option.bind_eq_bind] at hm
  cases hnew : NewHistogram (if h2.Offset < h1.Offset then h2.Offset else h1.Offset)
      (if h1.Divider < h2.Divider then h2.Divider else h1.Divider) with
  | none => rw [hnew] at hm; simp at hm
  | some h0 =>
      rw [hnew, Option.some_bind] at hm
      cases ht1 : h0.Transfer h1 with
      | none => rw [ht1] at hm; simp at hm
      | some p1 =>
          rw [ht1, Option.some_bind] at hm
          cases ht2 : p1.1.Transfer h2 with
          | none => rw [ht2] at hm; simp at hm
          | some p2 =>
              rw [ht2, Option.map_some'] at hm
              injection hm with hm
              constructor
              · intro hpos
                have h1r : r.2.1 = h1.Reset := by
                  rw [← hm]
                  exact transfer_snd ht1 (by omega)
                rw [h1r]
                refine ⟨rfl, fun i => ?_⟩
                show (List.replicate h1.Hdata.length (0 : ℤ)).getD i 0 = 0
                exact getD_replicate_zero _ _
              · intro hpos
                have h2r : r.2.2 = h2.Reset := by
                  rw [← hm]
                  show p2.2 = h2.Reset
                  exact transfer_snd ht2 (by omega)
                rw [h2r]
                refine ⟨rfl, fun i => ?_⟩
                show (List.replicate h2.Hdata.length (0 : ℤ)).getD i 0 = 0
                exact getD_replicate_zero _ _

def c10A : Histogram := ⟨⟨1, 5, 5, 5, 25⟩, 0, 1, [3]⟩

def c10B : Histogram := ⟨⟨2, 1, 4, 5, 17⟩, 0, 1, [0, 1, 1]⟩

def c10R : Histogram × Histogram × Histogram :=
  (Merge c10A c10B).getD
    (⟨Counter.empty, 0, 1, []⟩, ⟨Counter.empty, 0, 1, []⟩,
      ⟨Counter.empty, 0, 1, []⟩)

/-- Witness for `merge_destructive` at two small non-empty histograms. -/
theorem merge_destructive_witness :
    Merge c10A c10B = some c10R ∧
    0 < c10A.counter.Count ∧ 0 < c10B.counter.Count ∧
    c10R.2.1.counter = Counter.empty ∧ c10R.2.2.counter = Counter.empty := by
  have hm : Merge c10A c10B = some c10R := by with_unfolding_all decide
  have hd := merge_destructive c10A c10B c10R hm
  exact ⟨hm, by decide, by decide, (hd.1 (by decide)).1, (hd.2 (by decide)).1⟩

/-! ## Prometheus parser (claim C7) -/

theorem take_findIdx_eq_takeWhile : ∀ t : List Char,
    (match t.findIdx? (fun x => x == braceChar) with
      | some j => t.take j
      | none => t) = t.takeWhile (fun x => x ≠ braceChar) := by
  intro t
  induction t with
  | nil => rfl
  | cons c t ih =>
      rw [List.findIdx?_cons]
      by_cases hc : c = braceChar
      · rw [if_pos (by simp [hc])]
        rw [List.takeWhile_cons, if_neg (by simp [hc])]
        rfl
      · rw [if_neg (by simp [hc])]
        rw [List.findIdx?_succ]
        rw [List.takeWhile_cons, if_pos (by simp [hc])]
        cases hfi : t.findIdx? (fun x => x == braceChar) with
        | none =>
            rw [hfi] at ih
            have ih' : t = t.takeWhile (fun x => x ≠ braceChar) := ih
            rw [Option.map_none']
            dsimp only
            rw [← ih']
        | some j =>
            rw [hfi] at ih
            have ih' : t.take j = t.takeWhile (fun x => x ≠ braceChar) := ih
            rw [Option.map_some']
            dsimp only
            rw [List.take_succ_cons, ih']

/-- The label stripping of the Go code agrees with the guarded `takeWhile`
form: a leading brace is left alone, otherwise everything from the first
brace onward is dropped. -/
theorem stripLabelsGo_eq (tok : List Char) :
    stripLabelsGo tok =
      (if tok.head? = some braceChar then tok
       else tok.takeWhile (fun c => c ≠ braceChar)) := by
  unfold stripLabelsGo
  cases tok with
  | nil => rfl
  | cons c t =>
      rw [List.findIdx?_cons]
      by_cases hc : c = braceChar
      · rw [if_pos (by simp [hc])]
        dsimp only
        rw [if_neg (lt_irrefl 0), if_pos (by rw [List.head?_cons, hc])]
      · rw [if_neg (by simp [hc]), List.findIdx?_succ]
        rw [if_neg (by simp [hc] : ¬ (c :: t).head? = some braceChar)]
        rw [List.takeWhile_cons, if_pos (by simp [hc])]
        have ht := take_findIdx_eq_takeWhile t
        cases hfi : t.findIdx? (fun x => x == braceChar) with
        | none =>
            rw [hfi] at ht
            have ht' : t = t.takeWhile (fun x => x ≠ braceChar) := ht
            rw [Option.map_none']
            dsimp only
            rw [← ht']
        | some j =>
            rw [hfi] at ht
            have ht' : t.take j = t.takeWhile (fun x => x ≠ braceChar) := ht
            rw [Option.map_some']
            dsimp only
            rw [if_pos (by omega), List.take_succ_cons, ht']

theorem parseMetricLine_eq_amended (raw : List Char) :
    parseMetricLine raw = amendedMetricLine raw := by
  unfold parseMetricLine amendedMetricLine
  dsimp only
  by_cases h1 : goTrimSpace raw = []
  · rw [if_pos h1, if_pos (Or.inl h1)]
  · by_cases h2 : (goTrimSpace raw).head? = some '#'
    · rw [if_neg h1, if_pos h2, if_pos (Or.inr h2)]
    · have hno : ¬ (goTrimSpace raw = [] ∨ (goTrimSpace raw).head? = some '#') :=
        fun hcon => hcon.elim h1 h2
      rw [if_neg h1, if_neg h2, if_neg hno]
      by_cases h3 : 2 ≤ (goFields (goTrimSpace raw)).length
      · rw [if_pos h3,
          if_neg (by omega : ¬ (goFields (goTrimSpace raw)).length < 2)]
        cases parseFloat ((goFields (goTrimSpace raw)).getLastD []) with
        | none => rfl
        | some v =>
            rw [Option.map_some']
            dsimp only
            rw [stripLabelsGo_eq]
      · rw [if_neg h3,
          if_pos (by omega : (goFields (goTrimSpace raw)).length < 2)]

/-- C7 counterexample: two inputs on which the parser differs from the
claimed rule.  On the line `"\x7bx\x7d 5"` the code keeps the name
`"\x7bx\x7d"` unstripped (the brace index is 0, and the strip only happens
for a strictly positive index), while the claimed rule strips from the first
brace and yields the empty name.  On the single-token line `"7"` the code
returns nothing (it requires at least two fields), while the claimed rule
parses the last token and yields one metric. -/
theorem parse_prometheus_counterexample :
    ParsePrometheusMetrics ("\x7bx\x7d 5".toList) =
      [⟨"\x7bx\x7d".toList, 5⟩] ∧
    claimParse ("\x7bx\x7d 5".toList) = [⟨[], 5⟩] ∧
    ParsePrometheusMetrics ("7".toList) = [] ∧
    claimParse ("7".toList) = [⟨"7".toList, 7⟩] ∧
    ([⟨"\x7bx\x7d".toList, (5 : ℚ)⟩] : List PrometheusMetric) ≠ [⟨[], 5⟩] ∧
    (([] : List PrometheusMetric) ≠ [⟨"7".toList, 7⟩]) := by
  refine ⟨?_, ?_, ?_, ?_, ?_, ?_⟩ <;> with_unfolding_all decide

/-- C7 (amended): each line is handled independently: after trimming, empty
lines and lines starting with `#` yield nothing; a line with fewer than two
whitespace-delimited tokens yields nothing; otherwise the name is the first
token with everything from the first brace onward stripped unless the brace
is the leading character (in which case the name is kept whole), the value
is the last token parsed as a float, and lines whose value fails to parse
are dropped; the result is the ordered sequence of (name, value) pairs, and
on the S6 input it is exactly `[("foo_total", 42), ("bar", 3.14)]`. -/
theorem parse_prometheus_amended :
    (∀ data, ParsePrometheusMetrics data = amendedParse data) ∧
    ParsePrometheusMetrics s6Input =
      [⟨"foo_total".toList, 42⟩, ⟨"bar".toList, 157 / 50⟩] := by
  constructor
  · intro data
    unfold ParsePrometheusMetrics amendedParse
    rw [show parseMetricLine = amendedMetricLine from
      funext parseMetricLine_eq_amended]
  · with_unfolding_all decide

/-! ## Run monitor progress (claim C8) -/

/-- C8 counterexample: with expected duration 200 s and elapsed 199 s the
monitor computes `progressPercent = 99.5`, above the claimed cap of 99: the
code only snaps the value to 99 when it exceeds 100. -/
theorem progress_clamp_counterexample :
    runningProgressPercent 199 200 = 199 / 2 ∧ ¬ ((199 : ℚ) / 2 ≤ 99) := by
  constructor
  · unfold runningProgressPercent
    rw [if_pos (by norm_num : (0 : ℚ) < 200)]
    dsimp only
    rw [if_neg (by norm_num : ¬ (100 : ℚ) < 199 / 200 * 100)]
    norm_num
  · norm_num

/-- C8 (amended): for a positive expected duration, every periodic snapshot
has status `"running"` and progress `elapsed/expected × 100`, snapped to 99
only when the raw value exceeds 100 — so values in `(99, 100]` are published
as computed, and the running progress never exceeds 100; the single final
snapshot carries progress 100 with status `"completed"` or `"error"`. -/
theorem run_monitor_progress_amended (elapsed expected : ℚ)
    (hpos : 0 < expected) :
    (runningSnapshot elapsed expected).Status = "running" ∧
    (runningSnapshot elapsed expected).ProgressPercent =
      (if 100 < elapsed / expected * 100 then 99
       else elapsed / expected * 100) ∧
    (runningSnapshot elapsed expected).ProgressPercent ≤ 100 ∧
    (∀ st : String, (finalSnapshot st).ProgressPercent = 100) ∧
    (∀ hasError : Bool,
      runFinalStatus hasError = "completed" ∨
        runFinalStatus hasError = "error") := by
  refine ⟨rfl, ?_, ?_, fun _ => rfl, fun hasError => ?_⟩
  · show runningProgressPercent elapsed expected = _
    unfold runningProgressPercent
    rw [if_pos hpos]
  · show runningProgressPercent elapsed expected ≤ 100
    unfold runningProgressPercent
    rw [if_pos hpos]
    dsimp only
    by_cases hgt : 100 < elapsed / expected * 100
    · rw [if_pos hgt]
      norm_num
    · rw [if_neg hgt]
      linarith
  · cases hasError
    · exact Or.inl rfl
    · exact Or.inr rfl

/-- Witness for `run_monitor_progress_amended` at elapsed 50 of an expected
200 seconds. -/
theorem run_monitor_progress_amended_witness :
    (0 : ℚ) < 200 ∧ (runningSnapshot 50 200).Status = "running" ∧
    (runningSnapshot 50 200).ProgressPercent = 25 := by
  have h := run_monitor_progress_amended 50 200 (by norm_num)
  refine ⟨by norm_num, h.1, ?_⟩
  rw [h.2.1, if_neg (by norm_num : ¬ (100 : ℚ) < 50 / 200 * 100)]
  norm_num

/-! ## Subscriber notification (claim C9) -/

/-- C9: publishing never blocks and is lossy per subscriber: `trySend` is a
total function whose result never exceeds the capacity 10; a full channel is
left unchanged (the update is dropped for that subscriber only) while a
channel with room receives the snapshot; `notifySubscribers` updates every
channel of the run independently through `trySend` and leaves other runs
untouched; `addSubscriber` registers a fresh empty channel. -/
theorem subscriber_publish_lossy (clients : SubscriberMap) (runID id : ℤ)
    (m : LiveProgressModel) (ch : List LiveProgressModel) :
    (ch.length ≤ subscriberCapacity →
      (trySend ch m).length ≤ subscriberCapacity) ∧
    (ch.length = subscriberCapacity → trySend ch m = ch) ∧
    (ch.length < subscriberCapacity → trySend ch m = ch ++ [m]) ∧
    notifySubscribers clients runID m runID =
      (clients runID).map (fun c => trySend c m) ∧
    (id ≠ runID → notifySubscribers clients runID m id = clients id) ∧
    addSubscriber clients runID runID = clients runID ++ [[]] := by
  refine ⟨?_, ?_, ?_, ?_, ?_, ?_⟩
  · intro hle
    unfold trySend
    by_cases hlt : ch.length < subscriberCapacity
    · rw [if_pos hlt, List.length_append]
      simp only [List.length_singleton]
      omega
    · rw [if_neg hlt]
      exact hle
  · intro heq
    unfold trySend
    rw [if_neg (by omega)]
  · intro hlt
    unfold trySend
    rw [if_pos hlt]
  · unfold notifySubscribers
    rw [if_pos rfl]
  · intro hne
    unfold notifySubscribers
    rw [if_neg hne]
  · unfold addSubscriber
    rw [if_pos rfl]

/-- Witness for `subscriber_publish_lossy`: an empty channel has room and
receives the snapshot; a full channel drops it. -/
theorem subscriber_publish_lossy_witness :
    ([] : List LiveProgressModel).length < subscriberCapacity ∧
    trySend [] ⟨"running", 50⟩ = [⟨"running", 50⟩] ∧
    (List.replicate 10 (⟨"running", 1⟩ : LiveProgressModel)).length =
      subscriberCapacity ∧
    trySend (List.replicate 10 ⟨"running", 1⟩) ⟨"running", 50⟩ =
      List.replicate 10 ⟨"running", 1⟩ := by
  have h1 := (subscriber_publish_lossy (fun _ => []) 0 1 ⟨"running", 50⟩ []).2.2.1
  have h2 := (subscriber_publish_lossy (fun _ => []) 0 1 ⟨"running", 50⟩
    (List.replicate 10 ⟨"running", 1⟩)).2.1
  have hlen : (List.replicate 10 (⟨"running", 1⟩ : LiveProgressModel)).length =
      subscriberCapacity := by
    rw [List.length_replicate]
    rfl
  refine ⟨by decide, ?_, hlen, ?_⟩
  · rw [h1 (by decide)]
    exact List.nil_append _
  · rw [h2 hlen]

end Fortio
